import Mathlib

/-!
# Verification of the nbtx NBT codec

A shallow embedding of the `nbtx` crate's NBT (named binary tag) codec:
the tag model, the three wire variants, the streaming deserializer of
`src/de.rs` specialised to the dynamic `Value` tree of `src/value.rs`,
and the mirror encoder.  Bytes are modelled as natural numbers (with
`% 256` applied where the code reads a `u8`), byte streams as `List Nat`,
and every fallible operation returns `Except NbtError`.

The deserializer below is translated from `src/de.rs`; the `Value` tree,
its equality and its hashing are translated from `src/value.rs`.  The
crate's serializer module and its tag/error declarations are not part of
the provided sources, so those definitions are modelled from the spec
(each such definition says so in its doc comment).
-/

namespace Nbtx

/-- The closed set of 13 wire tags, discriminants 0 to 12
(`FieldType` in the crate; modelled from the spec's Tag Model, which the
provided `src/de.rs` uses through `FieldType::try_from`). -/
inductive FieldType where
  | end_
  | byte
  | short
  | int
  | long
  | float
  | double
  | byteArray
  | string
  | list
  | compound
  | intArray
  | longArray
deriving DecidableEq, Repr

/-- The structured decode errors of the crate (`NbtError`).  Modelled from
the spec: the error enum itself lives in the crate root, outside the
provided sources; the constructors and payloads follow spec section 7 and
the uses in `src/de.rs`. -/
inductive NbtError where
  /-- A tag-directed read found a different tag than required. -/
  | unexpectedType (expected actual : FieldType)
  /-- A tag byte outside the legal 0-12 range. -/
  | unrecognizedTag (b : Nat)
  /-- The requested shape has no wire representation. -/
  | unsupported (msg : String)
  /-- Source failure: truncation / end of input. -/
  | ioEof
  /-- Invalid UTF-8 string bytes. -/
  | utf8
  /-- Other errors, e.g. a sequence length mismatch. -/
  | other (msg : String)
deriving DecidableEq, Repr

/-- The three wire encodings (`Variant` in the crate; modelled from the
spec, mirrored by the `F::AS_ENUM` dispatch in `src/de.rs`). -/
inductive Variant where
  | bigEndian
  | littleEndian
  | networkEndian
deriving DecidableEq, Repr

/-- `FieldType::try_from(u8)`: bytes 0-12 map to the matching tag, anything
else is an `UnrecognizedTag` error carrying the byte. -/
def FieldType.tryFrom (b : Nat) : Except NbtError FieldType :=
  if b = 0 then .ok .end_
  else if b = 1 then .ok .byte
  else if b = 2 then .ok .short
  else if b = 3 then .ok .int
  else if b = 4 then .ok .long
  else if b = 5 then .ok .float
  else if b = 6 then .ok .double
  else if b = 7 then .ok .byteArray
  else if b = 8 then .ok .string
  else if b = 9 then .ok .list
  else if b = 10 then .ok .compound
  else if b = 11 then .ok .intArray
  else if b = 12 then .ok .longArray
  else .error (.unrecognizedTag b)

/-- The `Debug` rendering of a tag, as interpolated into error messages. -/
def FieldType.debugName : FieldType → String
  | .end_ => "End"
  | .byte => "Byte"
  | .short => "Short"
  | .int => "Int"
  | .long => "Long"
  | .float => "Float"
  | .double => "Double"
  | .byteArray => "ByteArray"
  | .string => "String"
  | .list => "List"
  | .compound => "Compound"
  | .intArray => "IntArray"
  | .longArray => "LongArray"

/-! ## Byte-level readers and writers -/

/-- Read one byte (`read_u8`); the stored value is reduced `% 256`. -/
def readU8 : List Nat → Except NbtError (Nat × List Nat)
  | [] => .error .ioEof
  | b :: rest => .ok (b % 256, rest)

/-- Read exactly `n` bytes (`read_exact`), failing with an I/O error on
truncation. -/
def readExact : Nat → List Nat → Except NbtError (List Nat × List Nat)
  | 0, l => .ok ([], l)
  | _ + 1, [] => .error .ioEof
  | n + 1, b :: rest =>
    match readExact n rest with
    | .error e => .error e
    | .ok (bs, r) => .ok (b :: bs, r)

/-- Read `w` bytes as an unsigned little-endian number. -/
def readLE : Nat → List Nat → Except NbtError (Nat × List Nat)
  | 0, l => .ok (0, l)
  | _ + 1, [] => .error .ioEof
  | w + 1, b :: rest =>
    match readLE w rest with
    | .error e => .error e
    | .ok (n, r) => .ok (b % 256 + 256 * n, r)

/-- Read `w` bytes as an unsigned big-endian number. -/
def readBE : Nat → List Nat → Except NbtError (Nat × List Nat)
  | 0, l => .ok (0, l)
  | _ + 1, [] => .error .ioEof
  | w + 1, b :: rest =>
    match readBE w rest with
    | .error e => .error e
    | .ok (n, r) => .ok (b % 256 * 2 ^ (8 * w) + n, r)

/-- The `w`-byte little-endian encoding of `n % 2^(8*w)`. -/
def leBytes : Nat → Nat → List Nat
  | 0, _ => []
  | w + 1, n => n % 256 :: leBytes w (n / 256)

/-- The `w`-byte big-endian encoding of `n % 2^(8*w)`. -/
def beBytes : Nat → Nat → List Nat
  | 0, _ => []
  | w + 1, n => n / 2 ^ (8 * w) % 256 :: beBytes w n

/-- Read an unsigned base-128 variable-length integer: 7 payload bits per
byte, least-significant group first, the high bit marking continuation.
Modelled from the spec's description of the varint encoding used by the
network variant (the crate delegates to the external `varint-rs` reader). -/
def readUVarint : List Nat → Except NbtError (Nat × List Nat)
  | [] => .error .ioEof
  | b :: rest =>
    if b % 256 < 128 then .ok (b % 256, rest)
    else
      match readUVarint rest with
      | .error e => .error e
      | .ok (n, r) => .ok (b % 128 + 128 * n, r)

/-- The canonical unsigned varint encoding of `n`.  Modelled from the spec
(mirror writer of `readUVarint`). -/
def writeUVarint (n : Nat) : List Nat :=
  if h : n < 128 then [n]
  else (n % 128 + 128) :: writeUVarint (n / 128)
termination_by n
decreasing_by exact Nat.div_lt_self (by omega) (by omega)

/-- Interpret an unsigned `w`-bit value as two's-complement signed. -/
def toSigned (w : Nat) (n : Nat) : Int :=
  if n < 2 ^ (w - 1) then (n : Int) else (n : Int) - 2 ^ w

/-- The unsigned `w`-bit two's-complement pattern of the integer `i`. -/
def fromSigned (w : Nat) (i : Int) : Nat :=
  (i % (2 ^ w : Nat)).toNat

/-- Zigzag-decode an unsigned varint payload into a signed integer:
even values are non-negative halves, odd values negative. -/
def zigDecode (z : Nat) : Int :=
  if z % 2 = 0 then (z / 2 : Nat) else -((z / 2 : Nat) : Int) - 1

/-- Zigzag-encode a signed integer into the unsigned varint domain. -/
def zigEncode (i : Int) : Nat :=
  if 0 ≤ i then (2 * i).toNat else (-2 * i - 1).toNat

/-! ## UTF-8 validation

`String::from_utf8` in the decoder rejects invalid byte sequences.  This
validator follows the UTF-8 grammar of RFC 3629 as enforced by the Rust
standard library. -/

/-- A UTF-8 continuation byte: `0x80` to `0xBF`. -/
def utf8Cont (b : Nat) : Bool := 128 ≤ b && b ≤ 191

/-- UTF-8 validity of a byte sequence. -/
def validUtf8 : List Nat → Bool
  | [] => true
  | b :: r =>
    if b ≤ 127 then validUtf8 r
    else if 194 ≤ b && b ≤ 223 then
      match r with
      | c1 :: r' => utf8Cont c1 && validUtf8 r'
      | _ => false
    else if 224 ≤ b && b ≤ 239 then
      match r with
      | c1 :: c2 :: r' =>
        (if b = 224 then 160 ≤ c1 && c1 ≤ 191
         else if b = 237 then 128 ≤ c1 && c1 ≤ 159
         else utf8Cont c1) && utf8Cont c2 && validUtf8 r'
      | _ => false
    else if 240 ≤ b && b ≤ 244 then
      match r with
      | c1 :: c2 :: c3 :: r' =>
        (if b = 240 then 144 ≤ c1 && c1 ≤ 191
         else if b = 244 then 128 ≤ c1 && c1 ≤ 143
         else utf8Cont c1) && utf8Cont c2 && utf8Cont c3 && validUtf8 r'
      | _ => false
    else false

/-! ## The dynamic value tree (`src/value.rs`) -/

/-- The dynamic NBT value tree (`Value` in `src/value.rs`).  Strings are
kept as their UTF-8 byte sequences; `Float`/`Double` payloads are kept as
their raw 32/64-bit IEEE-754 bit patterns; `Compound` is the key-value map
as an association list in insertion order. -/
inductive Value where
  | byte (v : Int)
  | short (v : Int)
  | int (v : Int)
  | long (v : Int)
  | float (bits : Nat)
  | double (bits : Nat)
  | byteArray (v : List Nat)
  | string (v : List Nat)
  | list (v : List Value)
  | compound (v : List (List Nat × Value))
  | intArray (v : List Int)
  | longArray (v : List Int)

/-- `Value::discriminant`: the wire tag number of a value's variant. -/
def Value.discriminant : Value → Nat
  | .byte _ => 1
  | .short _ => 2
  | .int _ => 3
  | .long _ => 4
  | .float _ => 5
  | .double _ => 6
  | .byteArray _ => 7
  | .string _ => 8
  | .list _ => 9
  | .compound _ => 10
  | .intArray _ => 11
  | .longArray _ => 12

/-- The `FieldType` of a value's variant. -/
def Value.fieldType : Value → FieldType
  | .byte _ => .byte
  | .short _ => .short
  | .int _ => .int
  | .long _ => .long
  | .float _ => .float
  | .double _ => .double
  | .byteArray _ => .byteArray
  | .string _ => .string
  | .list _ => .list
  | .compound _ => .compound
  | .intArray _ => .intArray
  | .longArray _ => .longArray

/-- Whether a 32-bit pattern encodes an IEEE-754 single-precision NaN. -/
def isNan32 (p : Nat) : Bool := p / 2 ^ 23 % 256 = 255 && p % 2 ^ 23 ≠ 0

/-- Whether a 64-bit pattern encodes an IEEE-754 double-precision NaN. -/
def isNan64 (p : Nat) : Bool := p / 2 ^ 52 % 2048 = 2047 && p % 2 ^ 52 ≠ 0

/-- Whether a 32-bit pattern encodes `+0.0` or `-0.0`. -/
def isZero32 (p : Nat) : Bool := p = 0 || p = 2 ^ 31

/-- Whether a 64-bit pattern encodes `+0.0` or `-0.0`. -/
def isZero64 (p : Nat) : Bool := p = 0 || p = 2 ^ 63

/-- IEEE-754 equality of two single-precision bit patterns (Rust `f32`
`==`): NaN compares unequal to everything, the two zeros compare equal,
and otherwise distinct patterns are distinct values. -/
def f32Eq (a b : Nat) : Bool :=
  !isNan32 a && !isNan32 b && (a = b || (isZero32 a && isZero32 b))

/-- IEEE-754 equality of two double-precision bit patterns (Rust `f64`
`==`). -/
def f64Eq (a b : Nat) : Bool :=
  !isNan64 a && !isNan64 b && (a = b || (isZero64 a && isZero64 b))

/-- `HashMap::get`: look a key up in an association list. -/
def lookupKey (k : List Nat) : List (List Nat × Value) → Option Value
  | [] => none
  | (k', v) :: rest => if k' = k then some v else lookupKey k rest

mutual

/-- The `PartialEq<Value> for Value` implementation of `src/value.rs`:
variant-and-payload equality, with floats compared by IEEE-754 equality,
sequences compared order-dependently, and compounds compared as maps
(same size, every left entry present with an equal value on the right). -/
def valueEq : Value → Value → Bool
  | .byte a, .byte b => a = b
  | .short a, .short b => a = b
  | .int a, .int b => a = b
  | .long a, .long b => a = b
  | .float a, .float b => f32Eq a b
  | .double a, .double b => f64Eq a b
  | .byteArray a, .byteArray b => a = b
  | .string a, .string b => a = b
  | .list a, .list b => valuesEq a b
  | .compound a, .compound b => a.length = b.length && compoundSub a b
  | .intArray a, .intArray b => a = b
  | .longArray a, .longArray b => a = b
  | _, _ => false

/-- Order-dependent elementwise `Value` equality of two sequences. -/
def valuesEq : List Value → List Value → Bool
  | [], [] => true
  | x :: xs, y :: ys => valueEq x y && valuesEq xs ys
  | _, _ => false

/-- Every entry of the first map is present in the second with an equal
value (`HashMap` equality combined with the size check above). -/
def compoundSub : List (List Nat × Value) → List (List Nat × Value) → Bool
  | [], _ => true
  | (k, v) :: rest, b =>
    (match lookupKey k b with
     | some w => valueEq v w
     | none => false) && compoundSub rest b

end

/-- One write call issued to a `Hasher`. -/
inductive HWrite where
  | wI8 (v : Int)
  | wI16 (v : Int)
  | wI32 (v : Int)
  | wI64 (v : Int)
  | wU8 (v : Nat)
  | wBytes (bs : List Nat)
deriving DecidableEq, Repr

mutual

/-- The `Hash for Value` implementation of `src/value.rs`, abstracted as
the stream of writes fed to the hasher: scalar integers via their typed
write, strings via their bytes, floats and doubles via the raw
little-endian byte pattern, compounds entry by entry in iteration order,
and sequences elementwise. -/
def hashValue : Value → List HWrite
  | .byte v => [.wI8 v]
  | .short v => [.wI16 v]
  | .int v => [.wI32 v]
  | .long v => [.wI64 v]
  | .float p => [.wBytes (leBytes 4 p)]
  | .double p => [.wBytes (leBytes 8 p)]
  | .byteArray bs => bs.map .wU8
  | .string s => [.wBytes s]
  | .list vs => hashList vs
  | .compound m => hashEntries m
  | .intArray vs => vs.map .wI32
  | .longArray vs => vs.map .wI64

/-- Hash a list of values elementwise (`Hash::hash_slice`). -/
def hashList : List Value → List HWrite
  | [] => []
  | v :: rest => hashValue v ++ hashList rest

/-- Hash compound entries in iteration order: key bytes, then the value. -/
def hashEntries : List (List Nat × Value) → List HWrite
  | [] => []
  | (k, v) :: rest => .wBytes k :: (hashValue v ++ hashEntries rest)

end

/-! ## Variant-dispatched number and length readers (`src/de.rs`) -/

/-- `read_i16`: big-endian in the big-endian variant, little-endian in both
the little-endian and network variants (`deserialize_i16`). -/
def readI16 (F : Variant) (l : List Nat) : Except NbtError (Int × List Nat) :=
  match F with
  | .bigEndian =>
    match readBE 2 l with
    | .error e => .error e
    | .ok (n, r) => .ok (toSigned 16 n, r)
  | .littleEndian | .networkEndian =>
    match readLE 2 l with
    | .error e => .error e
    | .ok (n, r) => .ok (toSigned 16 n, r)

/-- `read_i32` / `read_i32_varint`: fixed-width in the two fixed variants,
signed zigzag varint in the network variant (`deserialize_i32`). -/
def readI32 (F : Variant) (l : List Nat) : Except NbtError (Int × List Nat) :=
  match F with
  | .bigEndian =>
    match readBE 4 l with
    | .error e => .error e
    | .ok (n, r) => .ok (toSigned 32 n, r)
  | .littleEndian =>
    match readLE 4 l with
    | .error e => .error e
    | .ok (n, r) => .ok (toSigned 32 n, r)
  | .networkEndian =>
    match readUVarint l with
    | .error e => .error e
    | .ok (z, r) => .ok (zigDecode (z % 2 ^ 32), r)

/-- `read_i64` / `read_i64_varint` (`deserialize_i64`). -/
def readI64 (F : Variant) (l : List Nat) : Except NbtError (Int × List Nat) :=
  match F with
  | .bigEndian =>
    match readBE 8 l with
    | .error e => .error e
    | .ok (n, r) => .ok (toSigned 64 n, r)
  | .littleEndian =>
    match readLE 8 l with
    | .error e => .error e
    | .ok (n, r) => .ok (toSigned 64 n, r)
  | .networkEndian =>
    match readUVarint l with
    | .error e => .error e
    | .ok (z, r) => .ok (zigDecode (z % 2 ^ 64), r)

/-- `read_f32`: big-endian only in the big-endian variant, little-endian
otherwise; the payload is the raw bit pattern (`deserialize_f32`). -/
def readF32 (F : Variant) (l : List Nat) : Except NbtError (Nat × List Nat) :=
  match F with
  | .bigEndian => readBE 4 l
  | .littleEndian | .networkEndian => readLE 4 l

/-- `read_f64` (`deserialize_f64`). -/
def readF64 (F : Variant) (l : List Nat) : Except NbtError (Nat × List Nat) :=
  match F with
  | .bigEndian => readBE 8 l
  | .littleEndian | .networkEndian => readLE 8 l

/-- The string length prefix: fixed unsigned 16-bit in the fixed variants,
plain (non-zigzag) unsigned 32-bit varint in the network variant
(`deserialize_string` and the root-name read in `Deserializer::new`). -/
def readStrLen (F : Variant) (l : List Nat) : Except NbtError (Nat × List Nat) :=
  match F with
  | .bigEndian => readBE 2 l
  | .littleEndian => readLE 2 l
  | .networkEndian =>
    match readUVarint l with
    | .error e => .error e
    | .ok (z, r) => .ok (z % 2 ^ 32, r)

/-- The sequence/byte-array length: a signed 32-bit quantity (fixed-width
or zigzag varint per variant) reinterpreted as unsigned after the read
(`SeqDeserializer::new` and `deserialize_byte_buf` read `i32` and cast it
to `u32`). -/
def readSeqLen (F : Variant) (l : List Nat) : Except NbtError (Nat × List Nat) :=
  match readI32 F l with
  | .error e => .error e
  | .ok (i, r) => .ok ((i % (2 ^ 32 : Nat)).toNat, r)

/-! ## Leaf deserializers

Each mirrors one `deserialize_*` method of `src/de.rs`: first the
`is_ty!` check of the ambient expected tag, then the payload read.  The
returned remainder carries a proof that no bytes were invented, which the
recursive composite deserializers need for termination. -/

/-- Decode results: a value plus the unconsumed suffix, bounded in length
by the input. -/
def DRes (l : List Nat) (α : Type) : Type :=
  Except NbtError (α × { r : List Nat // r.length ≤ l.length })

theorem readU8_length {l r : List Nat} {b : Nat} (h : readU8 l = .ok (b, r)) :
    r.length < l.length := by
  cases l with
  | nil => simp [readU8] at h
  | cons x xs => simp_all [readU8]

theorem readExact_length {n : Nat} {l bs r : List Nat}
    (h : readExact n l = .ok (bs, r)) : r.length + n = l.length := by
  induction n generalizing l bs r with
  | zero => simp_all [readExact]
  | succ m ih =>
    cases l with
    | nil => simp [readExact] at h
    | cons x xs =>
      simp only [readExact] at h
      cases hm : readExact m xs with
      | error e => rw [hm] at h; exact absurd h (by simp)
      | ok p =>
        obtain ⟨bs', r'⟩ := p
        rw [hm] at h
        simp only [Except.ok.injEq, Prod.mk.injEq] at h
        obtain ⟨h1, h2⟩ := h
        subst h2
        have := ih hm
        simp only [List.length_cons]
        omega

theorem readLE_length {w : Nat} {l r : List Nat} {n : Nat}
    (h : readLE w l = .ok (n, r)) : r.length + w = l.length := by
  induction w generalizing l n r with
  | zero => simp_all [readLE]
  | succ m ih =>
    cases l with
    | nil => simp [readLE] at h
    | cons x xs =>
      simp only [readLE] at h
      cases hm : readLE m xs with
      | error e => rw [hm] at h; exact absurd h (by simp)
      | ok p =>
        obtain ⟨n', r'⟩ := p
        rw [hm] at h
        simp only [Except.ok.injEq, Prod.mk.injEq] at h
        obtain ⟨h1, h2⟩ := h
        subst h2
        have := ih hm
        simp only [List.length_cons]
        omega

theorem readBE_length {w : Nat} {l r : List Nat} {n : Nat}
    (h : readBE w l = .ok (n, r)) : r.length + w = l.length := by
  induction w generalizing l n r with
  | zero => simp_all [readBE]
  | succ m ih =>
    cases l with
    | nil => simp [readBE] at h
    | cons x xs =>
      simp only [readBE] at h
      cases hm : readBE m xs with
      | error e => rw [hm] at h; exact absurd h (by simp)
      | ok p =>
        obtain ⟨n', r'⟩ := p
        rw [hm] at h
        simp only [Except.ok.injEq, Prod.mk.injEq] at h
        obtain ⟨h1, h2⟩ := h
        subst h2
        have := ih hm
        simp only [List.length_cons]
        omega

theorem readUVarint_length {l r : List Nat} {n : Nat}
    (h : readUVarint l = .ok (n, r)) : r.length < l.length := by
  induction l generalizing n r with
  | nil => simp [readUVarint] at h
  | cons x xs ih =>
    simp only [readUVarint] at h
    by_cases hx : x % 256 < 128
    · simp only [if_pos hx, Except.ok.injEq, Prod.mk.injEq] at h
      obtain ⟨_, h2⟩ := h
      subst h2
      simp
    · simp only [if_neg hx] at h
      cases hm : readUVarint xs with
      | error e => rw [hm] at h; exact absurd h (by simp)
      | ok p =>
        obtain ⟨n', r'⟩ := p
        rw [hm] at h
        simp only [Except.ok.injEq, Prod.mk.injEq] at h
        obtain ⟨_, h2⟩ := h
        subst h2
        have := ih hm
        simp only [List.length_cons]
        omega

theorem readI16_length {F : Variant} {l r : List Nat} {i : Int}
    (h : readI16 F l = .ok (i, r)) : r.length < l.length := by
  cases F <;> simp only [readI16] at h <;>
  · first
    | (cases hm : readBE 2 l with
       | error e => rw [hm] at h; exact absurd h (by simp)
       | ok p =>
         obtain ⟨n', r'⟩ := p
         rw [hm] at h
         simp only [Except.ok.injEq, Prod.mk.injEq] at h
         obtain ⟨_, h2⟩ := h
         subst h2
         have := readBE_length hm
         omega)
    | (cases hm : readLE 2 l with
       | error e => rw [hm] at h; exact absurd h (by simp)
       | ok p =>
         obtain ⟨n', r'⟩ := p
         rw [hm] at h
         simp only [Except.ok.injEq, Prod.mk.injEq] at h
         obtain ⟨_, h2⟩ := h
         subst h2
         have := readLE_length hm
         omega)

theorem readI32_length {F : Variant} {l r : List Nat} {i : Int}
    (h : readI32 F l = .ok (i, r)) : r.length < l.length := by
  cases F <;> simp only [readI32] at h
  · cases hm : readBE 4 l with
    | error e => rw [hm] at h; exact absurd h (by simp)
    | ok p =>
      obtain ⟨n', r'⟩ := p
      rw [hm] at h
      simp only [Except.ok.injEq, Prod.mk.injEq] at h
      obtain ⟨_, h2⟩ := h
      subst h2
      have := readBE_length hm
      omega
  · cases hm : readLE 4 l with
    | error e => rw [hm] at h; exact absurd h (by simp)
    | ok p =>
      obtain ⟨n', r'⟩ := p
      rw [hm] at h
      simp only [Except.ok.injEq, Prod.mk.injEq] at h
      obtain ⟨_, h2⟩ := h
      subst h2
      have := readLE_length hm
      omega
  · cases hm : readUVarint l with
    | error e => rw [hm] at h; exact absurd h (by simp)
    | ok p =>
      obtain ⟨n', r'⟩ := p
      rw [hm] at h
      simp only [Except.ok.injEq, Prod.mk.injEq] at h
      obtain ⟨_, h2⟩ := h
      subst h2
      exact readUVarint_length hm

theorem readSeqLen_length {F : Variant} {l r : List Nat} {n : Nat}
    (h : readSeqLen F l = .ok (n, r)) : r.length < l.length := by
  simp only [readSeqLen] at h
  cases hm : readI32 F l with
  | error e => rw [hm] at h; exact absurd h (by simp)
  | ok p =>
    obtain ⟨i, r'⟩ := p
    rw [hm] at h
    simp only [Except.ok.injEq, Prod.mk.injEq] at h
    obtain ⟨_, h2⟩ := h
    subst h2
    exact readI32_length hm

theorem readI64_length {F : Variant} {l r : List Nat} {i : Int}
    (h : readI64 F l = .ok (i, r)) : r.length < l.length := by
  cases F <;> simp only [readI64] at h
  · cases hm : readBE 8 l with
    | error e => rw [hm] at h; exact absurd h (by simp)
    | ok p =>
      obtain ⟨n', r'⟩ := p
      rw [hm] at h
      simp only [Except.ok.injEq, Prod.mk.injEq] at h
      obtain ⟨_, h2⟩ := h
      subst h2
      have := readBE_length hm
      omega
  · cases hm : readLE 8 l with
    | error e => rw [hm] at h; exact absurd h (by simp)
    | ok p =>
      obtain ⟨n', r'⟩ := p
      rw [hm] at h
      simp only [Except.ok.injEq, Prod.mk.injEq] at h
      obtain ⟨_, h2⟩ := h
      subst h2
      have := readLE_length hm
      omega
  · cases hm : readUVarint l with
    | error e => rw [hm] at h; exact absurd h (by simp)
    | ok p =>
      obtain ⟨n', r'⟩ := p
      rw [hm] at h
      simp only [Except.ok.injEq, Prod.mk.injEq] at h
      obtain ⟨_, h2⟩ := h
      subst h2
      exact readUVarint_length hm

theorem readF32_length {F : Variant} {l r : List Nat} {n : Nat}
    (h : readF32 F l = .ok (n, r)) : r.length < l.length := by
  cases F <;> simp only [readF32] at h <;>
    first
      | (have hx := readBE_length h; omega)
      | (have hx := readLE_length h; omega)

theorem readF64_length {F : Variant} {l r : List Nat} {n : Nat}
    (h : readF64 F l = .ok (n, r)) : r.length < l.length := by
  cases F <;> simp only [readF64] at h <;>
    first
      | (have hx := readBE_length h; omega)
      | (have hx := readLE_length h; omega)

theorem readStrLen_length {F : Variant} {l r : List Nat} {n : Nat}
    (h : readStrLen F l = .ok (n, r)) : r.length < l.length := by
  cases F <;> simp only [readStrLen] at h
  · have := readBE_length h; omega
  · have := readLE_length h; omega
  · cases hm : readUVarint l with
    | error e => rw [hm] at h; exact absurd h (by simp)
    | ok p =>
      obtain ⟨n', r'⟩ := p
      rw [hm] at h
      simp only [Except.ok.injEq, Prod.mk.injEq] at h
      obtain ⟨_, h2⟩ := h
      subst h2
      exact readUVarint_length hm

/-- `deserialize_bool`: requires the `Byte` tag; wire `0` is `false`, any
nonzero byte is `true`. -/
def deserialize_bool (F : Variant) (nextTy : FieldType) (l : List Nat) : DRes l Bool :=
  if nextTy ≠ FieldType.byte then
    .error (.unexpectedType .byte nextTy)
  else
    match h : readU8 l with
    | .error e => .error e
    | .ok (b, r) => .ok (decide (b ≠ 0), ⟨r, Nat.le_of_lt (readU8_length h)⟩)

/-- `deserialize_i8`: requires the `Byte` tag; two's-complement signed. -/
def deserialize_i8 (F : Variant) (nextTy : FieldType) (l : List Nat) : DRes l Int :=
  if nextTy ≠ FieldType.byte then
    .error (.unexpectedType .byte nextTy)
  else
    match h : readU8 l with
    | .error e => .error e
    | .ok (b, r) => .ok (toSigned 8 b, ⟨r, Nat.le_of_lt (readU8_length h)⟩)

/-- `deserialize_i16`: requires the `Short` tag. -/
def deserialize_i16 (F : Variant) (nextTy : FieldType) (l : List Nat) : DRes l Int :=
  if nextTy ≠ FieldType.short then
    .error (.unexpectedType .short nextTy)
  else
    match h : readI16 F l with
    | .error e => .error e
    | .ok (i, r) => .ok (i, ⟨r, Nat.le_of_lt (readI16_length h)⟩)

/-- `deserialize_i32`: requires the `Int` tag. -/
def deserialize_i32 (F : Variant) (nextTy : FieldType) (l : List Nat) : DRes l Int :=
  if nextTy ≠ FieldType.int then
    .error (.unexpectedType .int nextTy)
  else
    match h : readI32 F l with
    | .error e => .error e
    | .ok (i, r) => .ok (i, ⟨r, Nat.le_of_lt (readI32_length h)⟩)

/-- `deserialize_i64`: requires the `Long` tag. -/
def deserialize_i64 (F : Variant) (nextTy : FieldType) (l : List Nat) : DRes l Int :=
  if nextTy ≠ FieldType.long then
    .error (.unexpectedType .long nextTy)
  else
    match h : readI64 F l with
    | .error e => .error e
    | .ok (i, r) => .ok (i, ⟨r, Nat.le_of_lt (readI64_length h)⟩)

/-- `deserialize_f32`: requires the `Float` tag; result is the raw bit
pattern. -/
def deserialize_f32 (F : Variant) (nextTy : FieldType) (l : List Nat) : DRes l Nat :=
  if nextTy ≠ FieldType.float then
    .error (.unexpectedType .float nextTy)
  else
    match h : readF32 F l with
    | .error e => .error e
    | .ok (p, r) => .ok (p, ⟨r, Nat.le_of_lt (readF32_length h)⟩)

/-- `deserialize_f64`: requires the `Double` tag. -/
def deserialize_f64 (F : Variant) (nextTy : FieldType) (l : List Nat) : DRes l Nat :=
  if nextTy ≠ FieldType.double then
    .error (.unexpectedType .double nextTy)
  else
    match h : readF64 F l with
    | .error e => .error e
    | .ok (p, r) => .ok (p, ⟨r, Nat.le_of_lt (readF64_length h)⟩)

/-- `deserialize_string`: requires the `String` tag; reads the per-variant
length prefix, that many bytes, and validates them as UTF-8 (the bytes of
the resulting string are returned). -/
def deserialize_string (F : Variant) (nextTy : FieldType) (l : List Nat) :
    DRes l (List Nat) :=
  if nextTy ≠ FieldType.string then
    .error (.unexpectedType .string nextTy)
  else
    match h : readStrLen F l with
    | .error e => .error e
    | .ok (len, r₁) =>
      match h2 : readExact len r₁ with
      | .error e => .error e
      | .ok (bs, r₂) =>
        if validUtf8 bs then
          .ok (bs, ⟨r₂, by
            have ha := readStrLen_length h
            have hb := readExact_length h2
            omega⟩)
        else .error .utf8

/-- `deserialize_byte_buf`: requires the `ByteArray` tag; reads an `i32`
length (cast unsigned) and that many raw bytes. -/
def deserialize_byte_buf (F : Variant) (nextTy : FieldType) (l : List Nat) :
    DRes l (List Nat) :=
  if nextTy ≠ FieldType.byteArray then
    .error (.unexpectedType .byteArray nextTy)
  else
    match h : readSeqLen F l with
    | .error e => .error e
    | .ok (len, r₁) =>
      match h2 : readExact len r₁ with
      | .error e => .error e
      | .ok (bs, r₂) =>
        .ok (bs, ⟨r₂, by
          have ha := readSeqLen_length h
          have hb := readExact_length h2
          omega⟩)

/-- The element-tag resolution at the top of `deserialize_tuple`: implied
element tag for the three array tags (no byte is consumed from the wire),
an explicit one-byte prefix otherwise. -/
def resolveElemTy (nextTy : FieldType) (l : List Nat) : DRes l FieldType :=
  match nextTy with
  | .byteArray => .ok (FieldType.byte, ⟨l, Nat.le_refl _⟩)
  | .intArray => .ok (FieldType.int, ⟨l, Nat.le_refl _⟩)
  | .longArray => .ok (FieldType.long, ⟨l, Nat.le_refl _⟩)
  | _ =>
    match h : readU8 l with
    | .error e => .error e
    | .ok (b, r) =>
      match FieldType.tryFrom b with
      | .error e => .error e
      | .ok t => .ok (t, ⟨r, Nat.le_of_lt (readU8_length h)⟩)

/-- The length-mismatch message of `SeqDeserializer::new`. -/
def seqLenMsg (expectedLen : Nat) (ty : FieldType) (remaining : Nat) : String :=
  "Sequence of " ++ toString expectedLen ++ " " ++ ty.debugName ++
    " expected, found only " ++ toString remaining ++ " items"

/-- The sequence header of `deserialize_tuple` plus `SeqDeserializer::new`:
resolve the element tag, read the length, and check it against a
caller-expected arity when that arity is nonzero.  Returns the element
tag, the wire length and the remaining input. -/
def seqHeader (F : Variant) (nextTy : FieldType) (expectedLen : Nat) (l : List Nat) :
    DRes l (FieldType × Nat) :=
  match resolveElemTy nextTy l with
  | .error e => .error e
  | .ok (ty, l₁) =>
    match h2 : readSeqLen F l₁.val with
    | .error e => .error e
    | .ok (remaining, r) =>
      if expectedLen ≠ 0 ∧ expectedLen ≠ remaining then
        .error (.other (seqLenMsg expectedLen ty remaining))
      else
        .ok ((ty, remaining), ⟨r, by
          have ha := readSeqLen_length h2
          have hb := l₁.property
          omega⟩)

theorem seqHeader_length {F : Variant} {nextTy : FieldType} {n : Nat}
    {l : List Nat} {ty : FieldType} {len : Nat}
    {r : { r : List Nat // r.length ≤ l.length }}
    (h : seqHeader F nextTy n l = .ok ((ty, len), r)) :
    r.val.length < l.length := by
  simp only [seqHeader] at h
  split at h
  · exact absurd h (by simp)
  · rename_i ty' l₁ hm
    split at h
    · exact absurd h (by simp)
    · rename_i rem r' h2
      split at h
      · exact absurd h (by simp)
      · injection h with h'
        injection h' with ha hb
        subst hb
        show r'.length < l.length
        have hc := readSeqLen_length h2
        have hd := l₁.property
        omega

/-! ## The recursive decoder

`from_bytes::<F, Value>` drives `deserialize_any` with serde's `Value`
visitor (`ValueVisitor` in `src/value.rs`).  The mutable decoder state of
`src/de.rs` (`next_ty`, `is_key`) is threaded explicitly: sequence
elements re-apply the element tag on every iteration
(`SeqDeserializer::next_element_seed`), and compound entries set the key
flag and a `String` expected tag before each key
(`MapDeserializer::next_key_seed`). -/

/-- `HashMap::insert` on the association-list model: replace the value of
an existing key, otherwise append the new entry. -/
def insertEntry : List (List Nat × Value) → List Nat → Value → List (List Nat × Value)
  | [], k, v => [(k, v)]
  | (k', v') :: rest, k, v =>
    if k' = k then (k', v) :: rest else (k', v') :: insertEntry rest k v

mutual

/-- `deserialize_any` under the dynamic `Value` visitor: a key read is
forced to a string; otherwise dispatch on the current expected tag.  An
`End` tag yields the unmatched-end-tag error; `ByteArray` goes through
`deserialize_byte_buf`; `List`/`IntArray`/`LongArray` go through the
sequence path (whose visitor builds a `Value::List`); `Compound` iterates
map entries until `End`. -/
def decodeAnyAux (F : Variant) (nextTy : FieldType) (isKey : Bool) (l : List Nat) :
    DRes l Value :=
  match isKey, nextTy with
  | true, ty =>
    match deserialize_string F ty l with
    | .error e => .error e
    | .ok (s, r) => .ok (.string s, r)
  | false, .end_ => .error (.other "Encountered unmatched end tag")
  | false, .byte =>
      match deserialize_i8 F .byte l with
      | .error e => .error e
      | .ok (i, r) => .ok (.byte i, r)
  | false, .short =>
      match deserialize_i16 F .short l with
      | .error e => .error e
      | .ok (i, r) => .ok (.short i, r)
  | false, .int =>
      match deserialize_i32 F .int l with
      | .error e => .error e
      | .ok (i, r) => .ok (.int i, r)
  | false, .long =>
      match deserialize_i64 F .long l with
      | .error e => .error e
      | .ok (i, r) => .ok (.long i, r)
  | false, .float =>
      match deserialize_f32 F .float l with
      | .error e => .error e
      | .ok (p, r) => .ok (.float p, r)
  | false, .double =>
      match deserialize_f64 F .double l with
      | .error e => .error e
      | .ok (p, r) => .ok (.double p, r)
  | false, .byteArray =>
      match deserialize_byte_buf F .byteArray l with
      | .error e => .error e
      | .ok (bs, r) => .ok (.byteArray bs, r)
  | false, .string =>
      match deserialize_string F .string l with
      | .error e => .error e
      | .ok (s, r) => .ok (.string s, r)
  | false, .list =>
      match h : seqHeader F .list 0 l with
      | .error e => .error e
      | .ok ((ety, n), l₁) =>
        match decodeElemsAux F ety n l₁.val with
        | .error e => .error e
        | .ok (vs, r) => .ok (.list vs, ⟨r.val, le_trans r.property l₁.property⟩)
  | false, .intArray =>
      match h : seqHeader F .intArray 0 l with
      | .error e => .error e
      | .ok ((ety, n), l₁) =>
        match decodeElemsAux F ety n l₁.val with
        | .error e => .error e
        | .ok (vs, r) => .ok (.list vs, ⟨r.val, le_trans r.property l₁.property⟩)
  | false, .longArray =>
      match h : seqHeader F .longArray 0 l with
      | .error e => .error e
      | .ok ((ety, n), l₁) =>
        match decodeElemsAux F ety n l₁.val with
        | .error e => .error e
        | .ok (vs, r) => .ok (.list vs, ⟨r.val, le_trans r.property l₁.property⟩)
  | false, .compound =>
      match decodeEntriesAux F l [] with
      | .error e => .error e
      | .ok (m, r) => .ok (.compound m, r)
termination_by (l.length, 2, 0)
decreasing_by
  · exact Prod.Lex.left _ _ (seqHeader_length h)
  · exact Prod.Lex.left _ _ (seqHeader_length h)
  · exact Prod.Lex.left _ _ (seqHeader_length h)
  · exact Prod.Lex.right _ (Prod.Lex.left _ _ (by omega))

/-- The element loop of `SeqDeserializer`: decode `n` elements, feeding
the established element tag back in before every element. -/
def decodeElemsAux (F : Variant) (ety : FieldType) (n : Nat) (l : List Nat) :
    DRes l (List Value) :=
  match n with
  | 0 => .ok ([], ⟨l, Nat.le_refl _⟩)
  | m + 1 =>
    match decodeAnyAux F ety false l with
    | .error e => .error e
    | .ok (v, r) =>
      match decodeElemsAux F ety m r.val with
      | .error e => .error e
      | .ok (vs, r') => .ok (v :: vs, ⟨r'.val, le_trans r'.property r.property⟩)
termination_by (l.length, 3, n)
decreasing_by
  · exact Prod.Lex.right _ (Prod.Lex.left _ _ (by omega))
  · rcases Nat.lt_or_ge r.val.length l.length with hlt | hge
    · exact Prod.Lex.left _ _ hlt
    · have heq : r.val.length = l.length := Nat.le_antisymm r.property hge
      rw [heq]
      exact Prod.Lex.right _ (Prod.Lex.right _ (by omega))

/-- The entry loop of `MapDeserializer`: read one tag byte; `End`
terminates the compound; otherwise decode the key as a forced string, then
the value under the tag read before the key, and insert the pair. -/
def decodeEntriesAux (F : Variant) (l : List Nat) (acc : List (List Nat × Value)) :
    DRes l (List (List Nat × Value)) :=
  match h0 : readU8 l with
  | .error e => .error e
  | .ok (b, l₁) =>
    match FieldType.tryFrom b with
    | .error e => .error e
    | .ok t =>
      if t = .end_ then .ok (acc, ⟨l₁, Nat.le_of_lt (readU8_length h0)⟩)
      else
        match deserialize_string F .string l₁ with
        | .error e => .error e
        | .ok (k, l₂) =>
          match decodeAnyAux F t false l₂.val with
          | .error e => .error e
          | .ok (v, l₃) =>
            match decodeEntriesAux F l₃.val (insertEntry acc k v) with
            | .error e => .error e
            | .ok (m, r) =>
              .ok (m, ⟨r.val, by
                have ha := readU8_length h0
                have hb := l₂.property
                have hc := l₃.property
                have hd := r.property
                omega⟩)
termination_by (l.length, 1, 0)
decreasing_by
  · have ha := readU8_length h0
    have hb := l₂.property
    exact Prod.Lex.left _ _ (by omega)
  · have ha := readU8_length h0
    have hb := l₂.property
    have hc := l₃.property
    exact Prod.Lex.left _ _ (by omega)

end

/-- `deserialize_any` for the dynamic `Value` visitor, with the length
bound on the remainder erased. -/
def deserialize_any (F : Variant) (nextTy : FieldType) (isKey : Bool) (l : List Nat) :
    Except NbtError (Value × List Nat) :=
  match decodeAnyAux F nextTy isKey l with
  | .error e => .error e
  | .ok (v, r) => .ok (v, r.val)

/-- The sequence element loop, with the length bound erased. -/
def decodeElems (F : Variant) (ety : FieldType) (n : Nat) (l : List Nat) :
    Except NbtError (List Value × List Nat) :=
  match decodeElemsAux F ety n l with
  | .error e => .error e
  | .ok (vs, r) => .ok (vs, r.val)

/-- The compound entry loop, with the length bound erased. -/
def decodeMapEntries (F : Variant) (l : List Nat) (acc : List (List Nat × Value)) :
    Except NbtError (List (List Nat × Value) × List Nat) :=
  match decodeEntriesAux F l acc with
  | .error e => .error e
  | .ok (m, r) => .ok (m, r.val)

/-- `Deserializer::new`: read the root tag byte, require it to be
`Compound`, then read and discard the root name using the active
variant's string-length rule (validating it as UTF-8).  Returns the
remaining input. -/
def newDeserializer (F : Variant) (l : List Nat) : Except NbtError (List Nat) :=
  match readU8 l with
  | .error e => .error e
  | .ok (b, l₁) =>
    match FieldType.tryFrom b with
    | .error e => .error e
    | .ok nextTy =>
      if nextTy ≠ FieldType.compound then
        .error (.unexpectedType .compound nextTy)
      else
        match readStrLen F l₁ with
        | .error e => .error e
        | .ok (len, l₂) =>
          match readExact len l₂ with
          | .error e => .error e
          | .ok (nm, l₃) =>
            if validUtf8 nm then .ok l₃ else .error .utf8

/-- `from_bytes::<F, Value>`: construct the deserializer (root tag and
name), then decode one dynamic `Value` with the expected tag `Compound`.
Returns the decoded value and the unconsumed remainder. -/
def from_bytes (F : Variant) (l : List Nat) : Except NbtError (Value × List Nat) :=
  match newDeserializer F l with
  | .error e => .error e
  | .ok rest => deserialize_any F .compound false rest

/-! ## The encoder

Modelled from the spec: the crate's serializer module is not among the
provided sources, so the writer below follows spec section 4.4 (the
mirror of the decoder) and the variant table of section 4.2. -/

/-- Modelled from the spec: the string length prefix written by the
encoder — unsigned 16-bit fixed in the fixed variants, unsigned varint in
the network variant (mirror of `readStrLen`). -/
def encStrLen (F : Variant) (n : Nat) : List Nat :=
  match F with
  | .bigEndian => beBytes 2 n
  | .littleEndian => leBytes 2 n
  | .networkEndian => writeUVarint n

/-- Modelled from the spec: the sequence/array length written by the
encoder — a signed 32-bit quantity, fixed-width or zigzag varint per
variant (mirror of `readSeqLen`). -/
def encSeqLen (F : Variant) (n : Nat) : List Nat :=
  match F with
  | .bigEndian => beBytes 4 n
  | .littleEndian => leBytes 4 n
  | .networkEndian => writeUVarint (zigEncode n)

/-- Modelled from the spec: a `Short` payload (always fixed-width). -/
def encI16 (F : Variant) (i : Int) : List Nat :=
  match F with
  | .bigEndian => beBytes 2 (fromSigned 16 i)
  | .littleEndian | .networkEndian => leBytes 2 (fromSigned 16 i)

/-- Modelled from the spec: an `Int` payload (fixed-width or zigzag
varint). -/
def encI32 (F : Variant) (i : Int) : List Nat :=
  match F with
  | .bigEndian => beBytes 4 (fromSigned 32 i)
  | .littleEndian => leBytes 4 (fromSigned 32 i)
  | .networkEndian => writeUVarint (zigEncode i)

/-- Modelled from the spec: a `Long` payload. -/
def encI64 (F : Variant) (i : Int) : List Nat :=
  match F with
  | .bigEndian => beBytes 8 (fromSigned 64 i)
  | .littleEndian => leBytes 8 (fromSigned 64 i)
  | .networkEndian => writeUVarint (zigEncode i)

/-- Modelled from the spec: a `Float` bit pattern (always fixed-width). -/
def encF32 (F : Variant) (p : Nat) : List Nat :=
  match F with
  | .bigEndian => beBytes 4 p
  | .littleEndian | .networkEndian => leBytes 4 p

/-- Modelled from the spec: a `Double` bit pattern. -/
def encF64 (F : Variant) (p : Nat) : List Nat :=
  match F with
  | .bigEndian => beBytes 8 p
  | .littleEndian | .networkEndian => leBytes 8 p

/-- Modelled from the spec: the element tag written for a `List` — the
run-time tag of the first element, with the `End` tag as the documented
placeholder convention for an empty list. -/
def elemTag : List Value → Nat
  | [] => 0
  | v :: _ => v.discriminant

/-- Modelled from the spec: the raw elements of an `IntArray`. -/
def encInts (F : Variant) : List Int → List Nat
  | [] => []
  | i :: rest => encI32 F i ++ encInts F rest

/-- Modelled from the spec: the raw elements of a `LongArray`. -/
def encLongs (F : Variant) : List Int → List Nat
  | [] => []
  | i :: rest => encI64 F i ++ encLongs F rest

mutual

/-- Modelled from the spec: the payload of one value.  Scalars use the
variant encodings above; `ByteArray`/`IntArray`/`LongArray` write only a
length and the raw elements; `String` writes length plus UTF-8 bytes;
`List` writes one element tag, a length, then each element's payload;
`Compound` writes its entries followed by a single `End` byte. -/
def encodePayload (F : Variant) : Value → List Nat
  | .byte i => [fromSigned 8 i]
  | .short i => encI16 F i
  | .int i => encI32 F i
  | .long i => encI64 F i
  | .float p => encF32 F p
  | .double p => encF64 F p
  | .byteArray bs => encSeqLen F bs.length ++ bs
  | .string s => encStrLen F s.length ++ s
  | .list vs => elemTag vs :: (encSeqLen F vs.length ++ encodeElements F vs)
  | .compound m => encodeEntries F m ++ [0]
  | .intArray vs => encSeqLen F vs.length ++ encInts F vs
  | .longArray vs => encSeqLen F vs.length ++ encLongs F vs

/-- Modelled from the spec: list element payloads, in order, with no
per-element tag or key. -/
def encodeElements (F : Variant) : List Value → List Nat
  | [] => []
  | v :: rest => encodePayload F v ++ encodeElements F rest

/-- Modelled from the spec: compound entries — for each field one tag
byte derived from the value's run-time type, the key (length plus bytes),
then the payload. -/
def encodeEntries (F : Variant) : List (List Nat × Value) → List Nat
  | [] => []
  | (k, v) :: rest =>
    v.discriminant :: (encStrLen F k.length ++ k ++ encodePayload F v ++ encodeEntries F rest)

end

/-- Modelled from the spec: `to_bytes` — one `Compound` tag byte, an
empty root name, then the value's payload. -/
def to_bytes (F : Variant) (v : Value) : List Nat :=
  10 :: (encStrLen F 0 ++ encodePayload F v)

/-! ## Well-formedness of value trees

`wfValue` captures exactly the trees a Rust caller can construct and feed
to the encoder without leaving the wire format's ranges: payloads within
their two's-complement/bit-pattern widths, strings valid UTF-8 within the
16-bit length prefix, lists shorter than `2^31` and homogeneous (one
declared element tag), compound keys unique, and no
`IntArray`/`LongArray` nodes (the dynamic decoder can never produce
them — its sequence visitor builds `Value::List`). -/

/-- All elements carry the run-time tag of the first. -/
def homogeneous : List Value → Bool
  | [] => true
  | v :: rest => rest.all fun w => w.discriminant == v.discriminant

/-- Keys are pairwise distinct. -/
def uniqueKeys : List (List Nat × Value) → Bool
  | [] => true
  | (k, _) :: rest => (lookupKey k rest).isNone && uniqueKeys rest

mutual

/-- Well-formedness for the round-trip statement (see the section doc). -/
def wfValue : Value → Bool
  | .byte i => -128 ≤ i && i < 128
  | .short i => -(2 ^ 15) ≤ i && i < 2 ^ 15
  | .int i => -(2 ^ 31) ≤ i && i < 2 ^ 31
  | .long i => -(2 ^ 63) ≤ i && i < 2 ^ 63
  | .float p => p < 2 ^ 32
  | .double p => p < 2 ^ 64
  | .byteArray bs => bs.length < 2 ^ 31 && bs.all (· < 256)
  | .string s => validUtf8 s && s.length < 2 ^ 16
  | .list vs => vs.length < 2 ^ 31 && homogeneous vs && wfValues vs
  | .compound m => uniqueKeys m && wfEntries m
  | .intArray _ => false
  | .longArray _ => false

/-- Well-formedness of each element of a list. -/
def wfValues : List Value → Bool
  | [] => true
  | v :: rest => wfValue v && wfValues rest

/-- Well-formedness of compound entries: valid keys within the length
prefix and well-formed values. -/
def wfEntries : List (List Nat × Value) → Bool
  | [] => true
  | (k, v) :: rest => validUtf8 k && k.length < 2 ^ 16 && wfValue v && wfEntries rest

end

mutual

/-- No `Float`/`Double` payload anywhere in the tree is a NaN pattern. -/
def nanFree : Value → Bool
  | .float p => !isNan32 p
  | .double p => !isNan64 p
  | .list vs => nanFreeList vs
  | .compound m => nanFreeEntries m
  | _ => true

/-- NaN-freedom of each element of a list. -/
def nanFreeList : List Value → Bool
  | [] => true
  | v :: rest => nanFree v && nanFreeList rest

/-- NaN-freedom of each compound entry's value. -/
def nanFreeEntries : List (List Nat × Value) → Bool
  | [] => true
  | (_, v) :: rest => nanFree v && nanFreeEntries rest

end

/-! ## Spec-worded readers

A second family of definitions following the wording of the spec's wire
format section, to be compared with the readers above: a fixed-width read
takes exactly `w` bytes and combines them positionally in the stated byte
order, a varint read accumulates 7-bit groups at explicit shifts, and
zigzag decoding interleaves the non-negative and negative integers. -/

/-- Spec wording: combine bytes little-endian, least-significant first. -/
def spec_combineLE : List Nat → Nat
  | [] => 0
  | b :: t => b % 256 + 256 * spec_combineLE t

/-- Spec wording: combine bytes big-endian, most-significant first; each
byte is weighted by the number of bytes after it. -/
def spec_combineBE : List Nat → Nat
  | [] => 0
  | b :: t => b % 256 * 2 ^ (8 * t.length) + spec_combineBE t

/-- Spec wording: a fixed-width little-endian read takes exactly `w`
bytes off the stream and combines them little-endian. -/
def spec_fixedLE (w : Nat) (l : List Nat) : Except NbtError (Nat × List Nat) :=
  match readExact w l with
  | .error e => .error e
  | .ok (bs, r) => .ok (spec_combineLE bs, r)

/-- Spec wording: a fixed-width big-endian read takes exactly `w` bytes
off the stream and combines them big-endian. -/
def spec_fixedBE (w : Nat) (l : List Nat) : Except NbtError (Nat × List Nat) :=
  match readExact w l with
  | .error e => .error e
  | .ok (bs, r) => .ok (spec_combineBE bs, r)

/-- Spec wording: an unsigned base-128 varint read, each byte
contributing its low 7 bits at the current shift, the high bit marking
continuation. -/
def spec_uvarint (shift acc : Nat) : List Nat → Except NbtError (Nat × List Nat)
  | [] => .error .ioEof
  | b :: r =>
    if b % 256 < 128 then .ok (acc + b % 256 * 2 ^ shift, r)
    else spec_uvarint (shift + 7) (acc + b % 128 * 2 ^ shift) r

/-- Spec wording: zigzag decoding sends even codes to non-negative
integers and odd codes to negative ones. -/
def spec_zigDecode (z : Nat) : Int :=
  if z % 2 = 0 then ((z / 2 : Nat) : Int) else -(((z + 1) / 2 : Nat) : Int)

/-! ## Hash-safety

The fragment of `Value` on which `Hash` is provably consistent with
`PartialEq`: no compound nodes (`Hash` iterates the map in storage order
while equality is order-independent) and no float or double payload that
is a NaN or a signed zero (equality is IEEE, hashing is bit-exact). -/

mutual

def hashSafe : Value → Bool
  | .float p => !isZero32 p && !isNan32 p
  | .double p => !isZero64 p && !isNan64 p
  | .compound _ => false
  | .list vs => hashSafeList vs
  | _ => true

def hashSafeList : List Value → Bool
  | [] => true
  | v :: rest => hashSafe v && hashSafeList rest

end

/-! ## Round-trip lemmas for the byte-level readers -/

theorem readExact_append (bs rest : List Nat) :
    readExact bs.length (bs ++ rest) = .ok (bs, rest) := by
  induction bs with
  | nil => simp [readExact]
  | cons b t ih => simp [readExact, ih]

theorem readLE_leBytes (w n : Nat) (rest : List Nat) :
    readLE w (leBytes w n ++ rest) = .ok (n % 2 ^ (8 * w), rest) := by
  induction w generalizing n with
  | zero => simp [readLE, leBytes, Nat.mod_one]
  | succ m ih =>
    have hsplit : 2 ^ (8 * (m + 1)) = 256 * 2 ^ (8 * m) := by
      rw [Nat.mul_succ, Nat.pow_add]
      ring
    simp only [leBytes, List.cons_append, readLE, List.append_eq]
    rw [ih (n / 256)]
    simp only [Except.ok.injEq, Prod.mk.injEq, and_true]
    rw [hsplit, Nat.mod_mul]
    omega

theorem readBE_beBytes (w n : Nat) (rest : List Nat) :
    readBE w (beBytes w n ++ rest) = .ok (n % 2 ^ (8 * w), rest) := by
  induction w generalizing n with
  | zero => simp [readBE, beBytes, Nat.mod_one]
  | succ m ih =>
    have hsplit : 2 ^ (8 * (m + 1)) = 2 ^ (8 * m) * 256 := by
      rw [Nat.mul_succ, Nat.pow_add]
    simp only [beBytes, List.cons_append, readBE, List.append_eq]
    rw [ih n]
    simp only [Except.ok.injEq, Prod.mk.injEq, and_true]
    rw [hsplit, Nat.mod_mul]
    have hm : n / 2 ^ (8 * m) % 256 % 256 = n / 2 ^ (8 * m) % 256 :=
      Nat.mod_mod_of_dvd _ dvd_rfl
    rw [hm]
    ring

theorem readUVarint_writeUVarint (n : Nat) (rest : List Nat) :
    readUVarint (writeUVarint n ++ rest) = .ok (n, rest) := by
  rw [writeUVarint]
  split
  · rename_i h
    have h1 : n % 256 = n := Nat.mod_eq_of_lt (by omega)
    simp [readUVarint, h1, h]
  · rename_i h
    have ih := readUVarint_writeUVarint (n / 128) rest
    have h1 : (n % 128 + 128) % 256 = n % 128 + 128 := Nat.mod_eq_of_lt (by omega)
    simp only [List.cons_append, readUVarint, h1, List.append_eq]
    rw [if_neg (by omega)]
    rw [ih]
    simp only [Except.ok.injEq, Prod.mk.injEq, and_true]
    omega
termination_by n
decreasing_by exact Nat.div_lt_self (by omega) (by omega)

theorem zigDecode_zigEncode (i : Int) : zigDecode (zigEncode i) = i := by
  simp only [zigDecode, zigEncode]
  split
  · rename_i h
    split <;> rename_i h2 <;> omega
  · rename_i h
    split <;> rename_i h2 <;> omega

theorem fromSigned_lt (w : Nat) (i : Int) : fromSigned w i < 2 ^ w := by
  simp only [fromSigned]
  have hp : (0 : Int) < ((2 ^ w : Nat) : Int) := by positivity
  have h1 := Int.emod_nonneg i (ne_of_gt hp)
  have h2 := Int.emod_lt_of_pos i hp
  omega

theorem toSigned_fromSigned8 (i : Int) (h1 : -128 ≤ i) (h2 : i < 128) :
    toSigned 8 (fromSigned 8 i) = i := by
  simp only [toSigned, fromSigned]
  norm_num
  split <;> omega

theorem toSigned_fromSigned16 (i : Int) (h1 : -(2 ^ 15) ≤ i) (h2 : i < 2 ^ 15) :
    toSigned 16 (fromSigned 16 i) = i := by
  simp only [toSigned, fromSigned]
  norm_num
  split <;> omega

theorem toSigned_fromSigned32 (i : Int) (h1 : -(2 ^ 31) ≤ i) (h2 : i < 2 ^ 31) :
    toSigned 32 (fromSigned 32 i) = i := by
  simp only [toSigned, fromSigned]
  norm_num
  split <;> omega

theorem toSigned_fromSigned64 (i : Int) (h1 : -(2 ^ 63) ≤ i) (h2 : i < 2 ^ 63) :
    toSigned 64 (fromSigned 64 i) = i := by
  simp only [toSigned, fromSigned]
  norm_num
  split <;> omega

/-! ## Round-trip lemmas for the variant-level payload encodings -/

theorem zigEncode_lt32 (i : Int) (h1 : -(2 ^ 31) ≤ i) (h2 : i < 2 ^ 31) :
    zigEncode i < 2 ^ 32 := by
  simp only [zigEncode]
  split <;> omega

theorem zigEncode_lt64 (i : Int) (h1 : -(2 ^ 63) ≤ i) (h2 : i < 2 ^ 63) :
    zigEncode i < 2 ^ 64 := by
  simp only [zigEncode]
  split <;> omega

theorem readI16_encI16 (F : Variant) (i : Int) (rest : List Nat)
    (h1 : -(2 ^ 15) ≤ i) (h2 : i < 2 ^ 15) :
    readI16 F (encI16 F i ++ rest) = .ok (i, rest) := by
  have hlt := fromSigned_lt 16 i
  have hmod : fromSigned 16 i % 2 ^ (8 * 2) = fromSigned 16 i :=
    Nat.mod_eq_of_lt (by norm_num at hlt ⊢; omega)
  cases F <;>
    simp only [readI16, encI16, readBE_beBytes, readLE_leBytes, hmod,
      toSigned_fromSigned16 i h1 h2]

theorem readI32_encI32 (F : Variant) (i : Int) (rest : List Nat)
    (h1 : -(2 ^ 31) ≤ i) (h2 : i < 2 ^ 31) :
    readI32 F (encI32 F i ++ rest) = .ok (i, rest) := by
  have hlt := fromSigned_lt 32 i
  have hmod : fromSigned 32 i % 2 ^ (8 * 4) = fromSigned 32 i :=
    Nat.mod_eq_of_lt (by norm_num at hlt ⊢; omega)
  have hz : zigEncode i % 2 ^ 32 = zigEncode i :=
    Nat.mod_eq_of_lt (zigEncode_lt32 i h1 h2)
  cases F <;>
    simp only [readI32, encI32, readBE_beBytes, readLE_leBytes,
      readUVarint_writeUVarint, hmod, hz, zigDecode_zigEncode,
      toSigned_fromSigned32 i h1 h2]

theorem readI64_encI64 (F : Variant) (i : Int) (rest : List Nat)
    (h1 : -(2 ^ 63) ≤ i) (h2 : i < 2 ^ 63) :
    readI64 F (encI64 F i ++ rest) = .ok (i, rest) := by
  have hlt := fromSigned_lt 64 i
  have hmod : fromSigned 64 i % 2 ^ (8 * 8) = fromSigned 64 i :=
    Nat.mod_eq_of_lt (by norm_num at hlt ⊢; omega)
  have hz : zigEncode i % 2 ^ 64 = zigEncode i :=
    Nat.mod_eq_of_lt (zigEncode_lt64 i h1 h2)
  cases F <;>
    simp only [readI64, encI64, readBE_beBytes, readLE_leBytes,
      readUVarint_writeUVarint, hmod, hz, zigDecode_zigEncode,
      toSigned_fromSigned64 i h1 h2]

theorem readF32_encF32 (F : Variant) (p : Nat) (rest : List Nat) (h : p < 2 ^ 32) :
    readF32 F (encF32 F p ++ rest) = .ok (p, rest) := by
  have hmod : p % 2 ^ (8 * 4) = p := Nat.mod_eq_of_lt (by norm_num; omega)
  cases F <;> simp only [readF32, encF32, readBE_beBytes, readLE_leBytes, hmod]

theorem readF64_encF64 (F : Variant) (p : Nat) (rest : List Nat) (h : p < 2 ^ 64) :
    readF64 F (encF64 F p ++ rest) = .ok (p, rest) := by
  have hmod : p % 2 ^ (8 * 8) = p := Nat.mod_eq_of_lt (by norm_num; omega)
  cases F <;> simp only [readF64, encF64, readBE_beBytes, readLE_leBytes, hmod]

theorem readStrLen_encStrLen (F : Variant) (n : Nat) (rest : List Nat)
    (h : n < 2 ^ 16) :
    readStrLen F (encStrLen F n ++ rest) = .ok (n, rest) := by
  have hmod : n % 2 ^ (8 * 2) = n := Nat.mod_eq_of_lt (by norm_num; omega)
  have hz : n % 2 ^ 32 = n := Nat.mod_eq_of_lt (by omega)
  cases F <;>
    simp only [readStrLen, encStrLen, readBE_beBytes, readLE_leBytes,
      readUVarint_writeUVarint, hmod, hz]

theorem readSeqLen_encSeqLen (F : Variant) (n : Nat) (rest : List Nat)
    (h : n < 2 ^ 31) :
    readSeqLen F (encSeqLen F n ++ rest) = .ok (n, rest) := by
  have hcast : ((n : Int) % ((2 ^ 32 : Nat) : Int)).toNat = n := by
    have : ((n : Int) % ((2 ^ 32 : Nat) : Int)) = (n : Int) :=
      Int.emod_eq_of_lt (by omega) (by push_cast; omega)
    omega
  have hmod : n % 2 ^ (8 * 4) = n := Nat.mod_eq_of_lt (by norm_num; omega)
  have hts : toSigned 32 n = (n : Int) := by
    simp only [toSigned]
    rw [if_pos (by norm_num; omega)]
  have hz : zigEncode (n : Int) % 2 ^ 32 = zigEncode (n : Int) :=
    Nat.mod_eq_of_lt (zigEncode_lt32 _ (by omega) (by omega))
  cases F <;>
    simp only [readSeqLen, readI32, encSeqLen, readBE_beBytes, readLE_leBytes,
      readUVarint_writeUVarint, hmod, hts, hz, zigDecode_zigEncode, hcast]

/-! ## Helper facts for the round-trip induction -/

theorem discriminant_lt (v : Value) : v.discriminant < 256 := by
  cases v <;> simp [Value.discriminant]

theorem tryFrom_discriminant (v : Value) :
    FieldType.tryFrom v.discriminant = .ok v.fieldType := by
  cases v <;> rfl

theorem fieldType_ne_end (v : Value) : v.fieldType ≠ .end_ := by
  cases v <;> simp [Value.fieldType]

theorem fieldType_eq_of_discriminant_eq {v w : Value}
    (h : v.discriminant = w.discriminant) : v.fieldType = w.fieldType := by
  cases v <;> cases w <;> first
    | rfl
    | simp [Value.discriminant] at h

theorem lookupKey_none_forall {k : List Nat} {m : List (List Nat × Value)}
    (h : lookupKey k m = none) : ∀ p ∈ m, p.1 ≠ k := by
  induction m with
  | nil =>
    intro p hp
    simp at hp
  | cons q rest ih =>
    obtain ⟨k', v'⟩ := q
    intro p hp
    simp only [lookupKey] at h
    by_cases hk : k' = k
    · rw [if_pos hk] at h
      exact absurd h (by simp)
    · rw [if_neg hk] at h
      rcases List.mem_cons.mp hp with hh | ht
      · subst hh
        exact hk
      · exact ih h p ht

theorem insertEntry_append {acc : List (List Nat × Value)} {k : List Nat}
    (v : Value) (h : lookupKey k acc = none) :
    insertEntry acc k v = acc ++ [(k, v)] := by
  induction acc with
  | nil => rfl
  | cons q rest ih =>
    obtain ⟨k', v'⟩ := q
    simp only [lookupKey] at h
    by_cases hk : k' = k
    · rw [if_pos hk] at h
      exact absurd h (by simp)
    · rw [if_neg hk] at h
      simp only [insertEntry, if_neg hk, List.cons_append, List.cons.injEq, true_and]
      exact ih h

theorem lookupKey_append_none {x : List Nat} {a b : List (List Nat × Value)}
    (ha : lookupKey x a = none) (hb : lookupKey x b = none) :
    lookupKey x (a ++ b) = none := by
  induction a with
  | nil => simpa using hb
  | cons q rest ih =>
    obtain ⟨k', v'⟩ := q
    simp only [lookupKey] at ha ⊢
    by_cases hk : k' = x
    · rw [if_pos hk] at ha
      exact absurd ha (by simp)
    · rw [if_neg hk] at ha ⊢
      exact ih ha

theorem suffix_le (a b : List Nat) : b.length ≤ (a ++ b).length := by
  simp

theorem deserialize_i8_enc (F : Variant) (i : Int) (rest : List Nat)
    (h1 : -128 ≤ i) (h2 : i < 128) :
    deserialize_i8 F .byte ([fromSigned 8 i] ++ rest) =
      .ok (i, ⟨rest, suffix_le _ _⟩) := by
  have hlt := fromSigned_lt 8 i
  have hr : readU8 ([fromSigned 8 i] ++ rest) = .ok (fromSigned 8 i, rest) := by
    simp only [List.cons_append, List.nil_append, readU8, Except.ok.injEq,
      Prod.mk.injEq, and_true]
    exact Nat.mod_eq_of_lt (by norm_num at hlt ⊢; omega)
  unfold deserialize_i8
  rw [if_neg (by simp)]
  split
  · rename_i e he
    rw [hr] at he
    exact absurd he (by simp)
  · rename_i b r he
    rw [hr] at he
    injection he with he'
    injection he' with ha hb
    subst ha
    subst hb
    rw [toSigned_fromSigned8 i h1 h2]

theorem deserialize_i16_enc (F : Variant) (i : Int) (rest : List Nat)
    (h1 : -(2 ^ 15) ≤ i) (h2 : i < 2 ^ 15) :
    deserialize_i16 F .short (encI16 F i ++ rest) =
      .ok (i, ⟨rest, suffix_le _ _⟩) := by
  have hr := readI16_encI16 F i rest h1 h2
  unfold deserialize_i16
  rw [if_neg (by simp)]
  split
  · rename_i e he
    rw [hr] at he
    exact absurd he (by simp)
  · rename_i j r he
    rw [hr] at he
    injection he with he'
    injection he' with ha hb
    subst ha
    subst hb
    rfl

theorem deserialize_i32_enc (F : Variant) (i : Int) (rest : List Nat)
    (h1 : -(2 ^ 31) ≤ i) (h2 : i < 2 ^ 31) :
    deserialize_i32 F .int (encI32 F i ++ rest) =
      .ok (i, ⟨rest, suffix_le _ _⟩) := by
  have hr := readI32_encI32 F i rest h1 h2
  unfold deserialize_i32
  rw [if_neg (by simp)]
  split
  · rename_i e he
    rw [hr] at he
    exact absurd he (by simp)
  · rename_i j r he
    rw [hr] at he
    injection he with he'
    injection he' with ha hb
    subst ha
    subst hb
    rfl

theorem deserialize_i64_enc (F : Variant) (i : Int) (rest : List Nat)
    (h1 : -(2 ^ 63) ≤ i) (h2 : i < 2 ^ 63) :
    deserialize_i64 F .long (encI64 F i ++ rest) =
      .ok (i, ⟨rest, suffix_le _ _⟩) := by
  have hr := readI64_encI64 F i rest h1 h2
  unfold deserialize_i64
  rw [if_neg (by simp)]
  split
  · rename_i e he
    rw [hr] at he
    exact absurd he (by simp)
  · rename_i j r he
    rw [hr] at he
    injection he with he'
    injection he' with ha hb
    subst ha
    subst hb
    rfl

theorem deserialize_f32_enc (F : Variant) (p : Nat) (rest : List Nat)
    (h : p < 2 ^ 32) :
    deserialize_f32 F .float (encF32 F p ++ rest) =
      .ok (p, ⟨rest, suffix_le _ _⟩) := by
  have hr := readF32_encF32 F p rest h
  unfold deserialize_f32
  rw [if_neg (by simp)]
  split
  · rename_i e he
    rw [hr] at he
    exact absurd he (by simp)
  · rename_i q r he
    rw [hr] at he
    injection he with he'
    injection he' with ha hb
    subst ha
    subst hb
    rfl

theorem deserialize_f64_enc (F : Variant) (p : Nat) (rest : List Nat)
    (h : p < 2 ^ 64) :
    deserialize_f64 F .double (encF64 F p ++ rest) =
      .ok (p, ⟨rest, suffix_le _ _⟩) := by
  have hr := readF64_encF64 F p rest h
  unfold deserialize_f64
  rw [if_neg (by simp)]
  split
  · rename_i e he
    rw [hr] at he
    exact absurd he (by simp)
  · rename_i q r he
    rw [hr] at he
    injection he with he'
    injection he' with ha hb
    subst ha
    subst hb
    rfl

theorem deserialize_string_enc (F : Variant) (s rest : List Nat)
    (hv : validUtf8 s = true) (hl : s.length < 2 ^ 16) :
    deserialize_string F .string (encStrLen F s.length ++ (s ++ rest)) =
      .ok (s, ⟨rest, by simp only [List.length_append]; omega⟩) := by
  have h1 := readStrLen_encStrLen F s.length (s ++ rest) hl
  unfold deserialize_string
  rw [if_neg (by simp)]
  split
  · rename_i e he
    rw [h1] at he
    exact absurd he (by simp)
  · rename_i len r₁ he
    rw [h1] at he
    injection he with he'
    injection he' with ha hb
    subst ha
    subst hb
    split
    · rename_i e2 he2
      rw [readExact_append] at he2
      exact absurd he2 (by simp)
    · rename_i bs2 r₂ he2
      rw [readExact_append] at he2
      injection he2 with he2'
      injection he2' with hc hd
      subst hc
      subst hd
      rw [if_pos hv]

theorem deserialize_byte_buf_enc (F : Variant) (bs rest : List Nat)
    (hl : bs.length < 2 ^ 31) :
    deserialize_byte_buf F .byteArray (encSeqLen F bs.length ++ (bs ++ rest)) =
      .ok (bs, ⟨rest, by simp only [List.length_append]; omega⟩) := by
  have h1 := readSeqLen_encSeqLen F bs.length (bs ++ rest) hl
  unfold deserialize_byte_buf
  rw [if_neg (by simp)]
  split
  · rename_i e he
    rw [h1] at he
    exact absurd he (by simp)
  · rename_i len r₁ he
    rw [h1] at he
    injection he with he'
    injection he' with ha hb
    subst ha
    subst hb
    split
    · rename_i e2 he2
      rw [readExact_append] at he2
      exact absurd he2 (by simp)
    · rename_i bs2 r₂ he2
      rw [readExact_append] at he2
      injection he2 with he2'
      injection he2' with hc hd
      subst hc
      subst hd
      rfl

/-- The element tag a decoder will see for an encoded list: `End` for the
empty list, the first element's tag otherwise. -/
def elemField : List Value → FieldType
  | [] => .end_
  | v :: _ => v.fieldType

theorem readU8_elemTag (vs : List Value) (z : List Nat) :
    readU8 (elemTag vs :: z) = .ok (elemTag vs, z) := by
  cases vs with
  | nil => rfl
  | cons v t =>
    simp only [elemTag, readU8, Except.ok.injEq, Prod.mk.injEq, and_true]
    exact Nat.mod_eq_of_lt (discriminant_lt v)

theorem tryFrom_elemTag (vs : List Value) :
    FieldType.tryFrom (elemTag vs) = .ok (elemField vs) := by
  cases vs with
  | nil => rfl
  | cons v t => exact tryFrom_discriminant v

theorem homogeneous_fieldType {vs : List Value} (h : homogeneous vs = true) :
    ∀ v ∈ vs, v.fieldType = elemField vs := by
  cases vs with
  | nil =>
    intro v hv
    simp at hv
  | cons v₀ t =>
    intro v hv
    rcases List.mem_cons.mp hv with hh | ht
    · subst hh
      rfl
    · simp only [homogeneous, List.all_eq_true] at h
      have := h v ht
      exact fieldType_eq_of_discriminant_eq (by
        have := of_decide_eq_true (by simpa using this)
        exact this)

theorem seqHeader_enc_list (F : Variant) (vs : List Value) (z : List Nat)
    (hlen : vs.length < 2 ^ 31) :
    seqHeader F .list 0 (elemTag vs :: (encSeqLen F vs.length ++ z)) =
      .ok ((elemField vs, vs.length),
        ⟨z, by simp only [List.length_cons, List.length_append]; omega⟩) := by
  have hres : resolveElemTy .list (elemTag vs :: (encSeqLen F vs.length ++ z)) =
      .ok (elemField vs,
        ⟨encSeqLen F vs.length ++ z, by simp only [List.length_cons]; omega⟩) := by
    unfold resolveElemTy
    split
    · rename_i he
      exact absurd he (by simp)
    · rename_i he
      exact absurd he (by simp)
    · rename_i he
      exact absurd he (by simp)
    · split
      · rename_i e he
        rw [readU8_elemTag] at he
        exact absurd he (by simp)
      · rename_i b r he
        rw [readU8_elemTag] at he
        injection he with he'
        injection he' with ha hb
        subst ha
        subst hb
        rw [tryFrom_elemTag]
  unfold seqHeader
  rw [hres]
  split
  · rename_i e he
    exact absurd he (by simp)
  · rename_i rem r he
    injection he with he'
    injection he' with ha hb
    subst ha
    have hrv : r.val = encSeqLen F vs.length ++ z := by rw [← hb]
    split
    · rename_i e2 he2
      rw [hrv, readSeqLen_encSeqLen F vs.length z hlen] at he2
      exact absurd he2 (by simp)
    · rename_i rem2 r2 he2
      rw [hrv, readSeqLen_encSeqLen F vs.length z hlen] at he2
      injection he2 with he2'
      injection he2' with hc hd
      subst hc
      subst hd
      rw [if_neg (by simp)]

/- A structural size for the round-trip induction. -/
mutual

def valueSize : Value → Nat
  | .list vs => valuesSize vs + 1
  | .compound m => entriesSize m + 1
  | _ => 1

def valuesSize : List Value → Nat
  | [] => 0
  | v :: t => valueSize v + valuesSize t + 1

def entriesSize : List (List Nat × Value) → Nat
  | [] => 0
  | (_, v) :: t => valueSize v + entriesSize t + 1

end

theorem val_mk {l : List Nat} (x : List Nat) (hx : x.length ≤ l.length) :
    (Subtype.mk x hx : { r : List Nat // r.length ≤ l.length }).val = x := rfl

theorem decodeAnyAux_byte (F : Variant) (l : List Nat) :
    decodeAnyAux F .byte false l =
      match deserialize_i8 F .byte l with
      | .error e => .error e
      | .ok (i, r) => .ok (.byte i, r) := by
  unfold decodeAnyAux
  rfl

theorem decodeAnyAux_short (F : Variant) (l : List Nat) :
    decodeAnyAux F .short false l =
      match deserialize_i16 F .short l with
      | .error e => .error e
      | .ok (i, r) => .ok (.short i, r) := by
  unfold decodeAnyAux
  rfl

theorem decodeAnyAux_int (F : Variant) (l : List Nat) :
    decodeAnyAux F .int false l =
      match deserialize_i32 F .int l with
      | .error e => .error e
      | .ok (i, r) => .ok (.int i, r) := by
  unfold decodeAnyAux
  rfl

theorem decodeAnyAux_long (F : Variant) (l : List Nat) :
    decodeAnyAux F .long false l =
      match deserialize_i64 F .long l with
      | .error e => .error e
      | .ok (i, r) => .ok (.long i, r) := by
  unfold decodeAnyAux
  rfl

theorem decodeAnyAux_float (F : Variant) (l : List Nat) :
    decodeAnyAux F .float false l =
      match deserialize_f32 F .float l with
      | .error e => .error e
      | .ok (p, r) => .ok (.float p, r) := by
  unfold decodeAnyAux
  rfl

theorem decodeAnyAux_double (F : Variant) (l : List Nat) :
    decodeAnyAux F .double false l =
      match deserialize_f64 F .double l with
      | .error e => .error e
      | .ok (p, r) => .ok (.double p, r) := by
  unfold decodeAnyAux
  rfl

theorem decodeAnyAux_byteArray (F : Variant) (l : List Nat) :
    decodeAnyAux F .byteArray false l =
      match deserialize_byte_buf F .byteArray l with
      | .error e => .error e
      | .ok (bs, r) => .ok (.byteArray bs, r) := by
  unfold decodeAnyAux
  rfl

theorem decodeAnyAux_string (F : Variant) (l : List Nat) :
    decodeAnyAux F .string false l =
      match deserialize_string F .string l with
      | .error e => .error e
      | .ok (s, r) => .ok (.string s, r) := by
  unfold decodeAnyAux
  rfl

theorem decodeAnyAux_end (F : Variant) (l : List Nat) :
    decodeAnyAux F .end_ false l = .error (.other "Encountered unmatched end tag") := by
  unfold decodeAnyAux
  rfl

theorem decodeAnyAux_key (F : Variant) (ty : FieldType) (l : List Nat) :
    decodeAnyAux F ty true l =
      match deserialize_string F ty l with
      | .error e => .error e
      | .ok (s, r) => .ok (.string s, r) := by
  unfold decodeAnyAux
  rfl

theorem decodeAnyAux_list (F : Variant) (l : List Nat) :
    decodeAnyAux F .list false l =
      match seqHeader F .list 0 l with
      | .error e => .error e
      | .ok ((ety, n), l₁) =>
        match decodeElemsAux F ety n l₁.val with
        | .error e => .error e
        | .ok (vs, r) => .ok (.list vs, ⟨r.val, le_trans r.property l₁.property⟩) := by
  conv_lhs => unfold decodeAnyAux
  split
  · rename_i e he
    simp only [he]
  · rename_i ety n l₁ he
    split
    · rename_i e2 he2
      simp only [he, he2]
    · rename_i vs r he2
      simp only [he, he2]

theorem decodeAnyAux_compound (F : Variant) (l : List Nat) :
    decodeAnyAux F .compound false l =
      match decodeEntriesAux F l [] with
      | .error e => .error e
      | .ok (m, r) => .ok (.compound m, r) := by
  unfold decodeAnyAux
  rfl

theorem decodeElemsAux_zero (F : Variant) (ety : FieldType) (l : List Nat) :
    decodeElemsAux F ety 0 l = .ok ([], ⟨l, Nat.le_refl _⟩) := by
  unfold decodeElemsAux
  rfl

theorem decodeElemsAux_succ (F : Variant) (ety : FieldType) (m : Nat) (l : List Nat) :
    decodeElemsAux F ety (m + 1) l =
      match decodeAnyAux F ety false l with
      | .error e => .error e
      | .ok (v, r) =>
        match decodeElemsAux F ety m r.val with
        | .error e => .error e
        | .ok (vs, r') => .ok (v :: vs, ⟨r'.val, le_trans r'.property r.property⟩) := by
  conv_lhs => unfold decodeElemsAux

/-! ## Bridging the wrappers and the bounded decoders -/

theorem unwrap_any {F : Variant} {ty : FieldType} {k : Bool} {l : List Nat}
    {v : Value} {rest : List Nat}
    (h : deserialize_any F ty k l = .ok (v, rest)) :
    ∃ pf : rest.length ≤ l.length, decodeAnyAux F ty k l = .ok (v, ⟨rest, pf⟩) := by
  unfold deserialize_any at h
  cases ha : decodeAnyAux F ty k l with
  | error e =>
    rw [ha] at h
    exact absurd h (by simp)
  | ok p =>
    obtain ⟨v', r⟩ := p
    rw [ha] at h
    simp only [Except.ok.injEq, Prod.mk.injEq] at h
    obtain ⟨hv, hr⟩ := h
    subst hv
    refine ⟨hr ▸ r.property, ?_⟩
    have hsub : (⟨rest, hr ▸ r.property⟩ : { x : List Nat // x.length ≤ l.length }) = r :=
      Subtype.ext hr.symm
    rw [hsub]

theorem unwrap_elems {F : Variant} {ety : FieldType} {n : Nat} {l : List Nat}
    {vs : List Value} {rest : List Nat}
    (h : decodeElems F ety n l = .ok (vs, rest)) :
    ∃ pf : rest.length ≤ l.length, decodeElemsAux F ety n l = .ok (vs, ⟨rest, pf⟩) := by
  unfold decodeElems at h
  cases ha : decodeElemsAux F ety n l with
  | error e =>
    rw [ha] at h
    exact absurd h (by simp)
  | ok p =>
    obtain ⟨vs', r⟩ := p
    rw [ha] at h
    simp only [Except.ok.injEq, Prod.mk.injEq] at h
    obtain ⟨hv, hr⟩ := h
    subst hv
    refine ⟨hr ▸ r.property, ?_⟩
    have hsub : (⟨rest, hr ▸ r.property⟩ : { x : List Nat // x.length ≤ l.length }) = r :=
      Subtype.ext hr.symm
    rw [hsub]

theorem unwrap_entries {F : Variant} {l : List Nat}
    {acc m : List (List Nat × Value)} {rest : List Nat}
    (h : decodeMapEntries F l acc = .ok (m, rest)) :
    ∃ pf : rest.length ≤ l.length, decodeEntriesAux F l acc = .ok (m, ⟨rest, pf⟩) := by
  unfold decodeMapEntries at h
  cases ha : decodeEntriesAux F l acc with
  | error e =>
    rw [ha] at h
    exact absurd h (by simp)
  | ok p =>
    obtain ⟨m', r⟩ := p
    rw [ha] at h
    simp only [Except.ok.injEq, Prod.mk.injEq] at h
    obtain ⟨hv, hr⟩ := h
    subst hv
    refine ⟨hr ▸ r.property, ?_⟩
    have hsub : (⟨rest, hr ▸ r.property⟩ : { x : List Nat // x.length ≤ l.length }) = r :=
      Subtype.ext hr.symm
    rw [hsub]

/-! ## The round-trip theorem

For every well-formed value, decoding the encoder's output under the
expected tag of the value's own variant yields the value back, leaving the
trailing bytes untouched. -/

mutual

theorem payload_rt (F : Variant) : (v : Value) → (rest : List Nat) →
    wfValue v = true →
    deserialize_any F v.fieldType false (encodePayload F v ++ rest) = .ok (v, rest)
  | .byte i, rest, h => by
    simp only [wfValue, Bool.and_eq_true, decide_eq_true_eq] at h
    rw [show (Value.byte i).fieldType = .byte from rfl,
      show encodePayload F (.byte i) = [fromSigned 8 i] from rfl]
    unfold deserialize_any
    rw [decodeAnyAux_byte, deserialize_i8_enc F i rest h.1 h.2]
  | .short i, rest, h => by
    simp only [wfValue, Bool.and_eq_true, decide_eq_true_eq] at h
    rw [show (Value.short i).fieldType = .short from rfl,
      show encodePayload F (.short i) = encI16 F i from rfl]
    unfold deserialize_any
    rw [decodeAnyAux_short, deserialize_i16_enc F i rest h.1 h.2]
  | .int i, rest, h => by
    simp only [wfValue, Bool.and_eq_true, decide_eq_true_eq] at h
    rw [show (Value.int i).fieldType = .int from rfl,
      show encodePayload F (.int i) = encI32 F i from rfl]
    unfold deserialize_any
    rw [decodeAnyAux_int, deserialize_i32_enc F i rest h.1 h.2]
  | .long i, rest, h => by
    simp only [wfValue, Bool.and_eq_true, decide_eq_true_eq] at h
    rw [show (Value.long i).fieldType = .long from rfl,
      show encodePayload F (.long i) = encI64 F i from rfl]
    unfold deserialize_any
    rw [decodeAnyAux_long, deserialize_i64_enc F i rest h.1 h.2]
  | .float p, rest, h => by
    simp only [wfValue, decide_eq_true_eq] at h
    rw [show (Value.float p).fieldType = .float from rfl,
      show encodePayload F (.float p) = encF32 F p from rfl]
    unfold deserialize_any
    rw [decodeAnyAux_float, deserialize_f32_enc F p rest h]
  | .double p, rest, h => by
    simp only [wfValue, decide_eq_true_eq] at h
    rw [show (Value.double p).fieldType = .double from rfl,
      show encodePayload F (.double p) = encF64 F p from rfl]
    unfold deserialize_any
    rw [decodeAnyAux_double, deserialize_f64_enc F p rest h]
  | .byteArray bs, rest, h => by
    simp only [wfValue, Bool.and_eq_true, decide_eq_true_eq] at h
    rw [show (Value.byteArray bs).fieldType = .byteArray from rfl,
      show encodePayload F (.byteArray bs) = encSeqLen F bs.length ++ bs from rfl,
      List.append_assoc]
    unfold deserialize_any
    rw [decodeAnyAux_byteArray, deserialize_byte_buf_enc F bs rest h.1]
  | .string s, rest, h => by
    simp only [wfValue, Bool.and_eq_true, decide_eq_true_eq] at h
    rw [show (Value.string s).fieldType = .string from rfl,
      show encodePayload F (.string s) = encStrLen F s.length ++ s from rfl,
      List.append_assoc]
    unfold deserialize_any
    rw [decodeAnyAux_string, deserialize_string_enc F s rest h.1 h.2]
  | .list vs, rest, h => by
    simp only [wfValue, Bool.and_eq_true, decide_eq_true_eq] at h
    obtain ⟨⟨hlen, hhom⟩, hwfs⟩ := h
    rw [show (Value.list vs).fieldType = .list from rfl,
      show encodePayload F (.list vs)
        = elemTag vs :: (encSeqLen F vs.length ++ encodeElements F vs) from rfl,
      List.cons_append, List.append_assoc]
    have ih := elems_rt F (elemField vs) vs rest hwfs (homogeneous_fieldType hhom)
    obtain ⟨pf, ha⟩ := unwrap_elems ih
    unfold deserialize_any
    rw [decodeAnyAux_list,
      seqHeader_enc_list F vs (encodeElements F vs ++ rest) hlen]
    simp only [val_mk]
    rw [ha]
  | .compound m, rest, h => by
    simp only [wfValue, Bool.and_eq_true] at h
    obtain ⟨hu, hwf⟩ := h
    rw [show (Value.compound m).fieldType = .compound from rfl,
      show encodePayload F (.compound m) = encodeEntries F m ++ [0] from rfl,
      List.append_assoc, List.singleton_append]
    have ih := entries_rt F m [] rest hwf hu (fun p hp => rfl)
    rw [List.nil_append] at ih
    obtain ⟨pf, ha⟩ := unwrap_entries ih
    unfold deserialize_any
    rw [decodeAnyAux_compound, ha]
  | .intArray vs, rest, h => by
    simp [wfValue] at h
  | .longArray vs, rest, h => by
    simp [wfValue] at h
termination_by v rest h => valueSize v
decreasing_by
  all_goals simp_wf
  all_goals simp only [valueSize, valuesSize, entriesSize]
  all_goals omega

theorem elems_rt (F : Variant) (ety : FieldType) : (vs : List Value) → (rest : List Nat) →
    wfValues vs = true → (∀ v ∈ vs, v.fieldType = ety) →
    decodeElems F ety vs.length (encodeElements F vs ++ rest) = .ok (vs, rest)
  | [], rest, h, hty => by
    rw [show encodeElements F ([] : List Value) = [] from rfl, List.nil_append,
      show ([] : List Value).length = 0 from rfl]
    unfold decodeElems
    rw [decodeElemsAux_zero]
  | v :: t, rest, h, hty => by
    simp only [wfValues, Bool.and_eq_true] at h
    obtain ⟨hv, ht⟩ := h
    have hty0 : v.fieldType = ety := hty v (List.mem_cons_self _ _)
    have ihv := payload_rt F v (encodeElements F t ++ rest) hv
    rw [hty0] at ihv
    obtain ⟨pfv, hav⟩ := unwrap_any ihv
    have iht := elems_rt F ety t rest ht (fun w hw => hty w (List.mem_cons_of_mem _ hw))
    obtain ⟨pft, hat⟩ := unwrap_elems iht
    rw [show encodeElements F (v :: t) = encodePayload F v ++ encodeElements F t from rfl,
      List.append_assoc, show (v :: t).length = t.length + 1 from rfl]
    unfold decodeElems
    rw [decodeElemsAux_succ, hav]
    simp only [val_mk]
    rw [hat]
termination_by vs rest h hty => valuesSize vs
decreasing_by
  all_goals simp_wf
  all_goals simp only [valueSize, valuesSize, entriesSize]
  all_goals omega

theorem entries_rt (F : Variant) : (m : List (List Nat × Value)) →
    (acc : List (List Nat × Value)) → (rest : List Nat) →
    wfEntries m = true → uniqueKeys m = true →
    (∀ p ∈ m, lookupKey p.1 acc = none) →
    decodeMapEntries F (encodeEntries F m ++ (0 :: rest)) acc = .ok (acc ++ m, rest)
  | [], acc, rest, hwf, hu, hd => by
    rw [show encodeEntries F ([] : List (List Nat × Value)) = [] from rfl,
      List.nil_append, List.append_nil]
    have haux : decodeEntriesAux F (0 :: rest) acc =
        .ok (acc, ⟨rest, by simp⟩) := by
      rw [decodeEntriesAux.eq_def]
      split
      · rename_i e he
        simp [readU8] at he
      · rename_i b l₁ he
        simp only [readU8, Except.ok.injEq, Prod.mk.injEq] at he
        obtain ⟨hb, hl⟩ := he
        subst hl
        have hb0 : b = 0 := by omega
        subst hb0
        rw [show FieldType.tryFrom 0 = .ok .end_ from rfl]
        simp
    unfold decodeMapEntries
    rw [haux]
  | (k, v) :: m', acc, rest, hwf, hu, hd => by
    simp only [wfEntries, Bool.and_eq_true, decide_eq_true_eq] at hwf
    obtain ⟨⟨⟨hk, hkl⟩, hv⟩, hm'⟩ := hwf
    simp only [uniqueKeys, Bool.and_eq_true] at hu
    obtain ⟨hlk, hu'⟩ := hu
    have hne := lookupKey_none_forall (Option.isNone_iff_eq_none.mp hlk)
    have ihv := payload_rt F v (encodeEntries F m' ++ (0 :: rest)) hv
    obtain ⟨pfv, hav⟩ := unwrap_any ihv
    have hins : insertEntry acc k v = acc ++ [(k, v)] :=
      insertEntry_append v (hd (k, v) (List.mem_cons_self _ _))
    have hd' : ∀ p ∈ m', lookupKey p.1 (acc ++ [(k, v)]) = none := by
      intro p hp
      apply lookupKey_append_none (hd p (List.mem_cons_of_mem _ hp))
      simp only [lookupKey]
      rw [if_neg (fun hq => hne p hp hq.symm)]
    have ihm := entries_rt F m' (acc ++ [(k, v)]) rest hm' hu' hd'
    obtain ⟨pfm, ham⟩ := unwrap_entries ihm
    rw [show encodeEntries F ((k, v) :: m')
        = v.discriminant :: (encStrLen F k.length ++ k ++ encodePayload F v ++
          encodeEntries F m') from rfl,
      List.cons_append]
    simp only [List.append_assoc]
    have hr8 : readU8 (v.discriminant :: (encStrLen F k.length ++ (k ++
        (encodePayload F v ++ (encodeEntries F m' ++ (0 :: rest)))))) =
        .ok (v.discriminant, encStrLen F k.length ++ (k ++
          (encodePayload F v ++ (encodeEntries F m' ++ (0 :: rest))))) := by
      simp only [readU8, Except.ok.injEq, Prod.mk.injEq, and_true]
      exact Nat.mod_eq_of_lt (discriminant_lt v)
    have haux : decodeEntriesAux F (v.discriminant :: (encStrLen F k.length ++ (k ++
        (encodePayload F v ++ (encodeEntries F m' ++ (0 :: rest)))))) acc =
        .ok (acc ++ (k, v) :: m',
          ⟨rest, by simp only [List.length_cons, List.length_append]; omega⟩) := by
      rw [decodeEntriesAux.eq_def]
      split
      · rename_i e he
        rw [hr8] at he
        exact absurd he (by simp)
      · rename_i b l₁ he
        rw [hr8] at he
        injection he with he'
        injection he' with hb hl₁
        subst hb
        subst hl₁
        rw [tryFrom_discriminant v]
        simp only [if_neg (fieldType_ne_end v)]
        rw [deserialize_string_enc F k
          (encodePayload F v ++ (encodeEntries F m' ++ (0 :: rest))) hk hkl]
        simp only [val_mk]
        rw [hav]
        simp only [val_mk]
        rw [hins, ham]
        simp only [val_mk, List.append_assoc, List.singleton_append]
    unfold decodeMapEntries
    rw [haux]
termination_by m acc rest hwf hu hd => entriesSize m
decreasing_by
  all_goals simp_wf
  all_goals simp only [valueSize, valuesSize, entriesSize]
  all_goals omega

end

/-! ## Reflexivity of the equality contract on NaN-free values -/

theorem lookup_self {m : List (List Nat × Value)} (hu : uniqueKeys m = true) :
    ∀ p ∈ m, lookupKey p.1 m = some p.2 := by
  induction m with
  | nil =>
    intro p hp
    simp at hp
  | cons q t ih =>
    obtain ⟨k, v⟩ := q
    simp only [uniqueKeys, Bool.and_eq_true] at hu
    obtain ⟨hlk, hu'⟩ := hu
    intro p hp
    rcases List.mem_cons.mp hp with hh | ht
    · subst hh
      simp [lookupKey]
    · have hne := lookupKey_none_forall (Option.isNone_iff_eq_none.mp hlk) p ht
      simp only [lookupKey]
      rw [if_neg (fun hq => hne hq.symm)]
      exact ih hu' p ht

mutual

theorem valueEq_refl : (v : Value) → wfValue v = true → nanFree v = true →
    valueEq v v = true
  | .byte i, h, hn => by simp [valueEq]
  | .short i, h, hn => by simp [valueEq]
  | .int i, h, hn => by simp [valueEq]
  | .long i, h, hn => by simp [valueEq]
  | .float p, h, hn => by
    simp only [nanFree, Bool.not_eq_true'] at hn
    simp [valueEq, f32Eq, hn]
  | .double p, h, hn => by
    simp only [nanFree, Bool.not_eq_true'] at hn
    simp [valueEq, f64Eq, hn]
  | .byteArray bs, h, hn => by simp [valueEq]
  | .string s, h, hn => by simp [valueEq]
  | .list vs, h, hn => by
    simp only [wfValue, Bool.and_eq_true] at h
    simp only [nanFree] at hn
    simp only [valueEq]
    exact valuesEq_refl vs h.2 hn
  | .compound m, h, hn => by
    simp only [wfValue, Bool.and_eq_true] at h
    simp only [nanFree] at hn
    simp only [valueEq, Bool.and_eq_true, decide_eq_true_eq]
    exact ⟨trivial, compoundSub_refl m m (lookup_self h.1) h.2 hn⟩
  | .intArray vs, h, hn => by simp [valueEq]
  | .longArray vs, h, hn => by simp [valueEq]
termination_by v h hn => valueSize v
decreasing_by
  all_goals simp_wf
  all_goals simp only [valueSize, valuesSize, entriesSize]
  all_goals omega

theorem valuesEq_refl : (vs : List Value) → wfValues vs = true →
    nanFreeList vs = true → valuesEq vs vs = true
  | [], _, _ => rfl
  | v :: t, h, hn => by
    simp only [wfValues, Bool.and_eq_true] at h
    simp only [nanFreeList, Bool.and_eq_true] at hn
    simp only [valuesEq, Bool.and_eq_true]
    exact ⟨valueEq_refl v h.1 hn.1, valuesEq_refl t h.2 hn.2⟩
termination_by vs h hn => valuesSize vs
decreasing_by
  all_goals simp_wf
  all_goals simp only [valueSize, valuesSize, entriesSize]
  all_goals omega

theorem compoundSub_refl : (sub b : List (List Nat × Value)) →
    (∀ p ∈ sub, lookupKey p.1 b = some p.2) → wfEntries sub = true →
    nanFreeEntries sub = true → compoundSub sub b = true
  | [], b, _, _, _ => rfl
  | (k, v) :: t, b, hs, h, hn => by
    simp only [wfEntries, Bool.and_eq_true, decide_eq_true_eq] at h
    simp only [nanFreeEntries, Bool.and_eq_true] at hn
    simp only [compoundSub, Bool.and_eq_true]
    constructor
    · rw [hs (k, v) (List.mem_cons_self _ _)]
      exact valueEq_refl v h.1.2 hn.1
    · exact compoundSub_refl t b (fun p hp => hs p (List.mem_cons_of_mem _ hp)) h.2 hn.2
termination_by sub b hs h hn => entriesSize sub
decreasing_by
  all_goals simp_wf
  all_goals simp only [valueSize, valuesSize, entriesSize]
  all_goals omega

end

/-! ## The document-level round trip -/

theorem from_bytes_to_bytes (F : Variant) (v : Value)
    (hc : v.fieldType = .compound) (h : wfValue v = true) :
    from_bytes F (to_bytes F v) = .ok (v, []) := by
  have hp := payload_rt F v [] h
  rw [List.append_nil, hc] at hp
  have hn : newDeserializer F (10 :: (encStrLen F 0 ++ encodePayload F v)) =
      .ok (encodePayload F v) := by
    unfold newDeserializer
    simp only [show readU8 (10 :: (encStrLen F 0 ++ encodePayload F v)) =
        .ok (10, encStrLen F 0 ++ encodePayload F v) from rfl,
      show FieldType.tryFrom 10 = .ok .compound from rfl,
      readStrLen_encStrLen F 0 (encodePayload F v) (by norm_num),
      show readExact 0 (encodePayload F v) = .ok ([], encodePayload F v) from rfl,
      show validUtf8 [] = true from rfl, ne_eq, not_true_eq_false, if_true, if_false,
      ite_true, ite_false, reduceIte]
  unfold from_bytes to_bytes
  simp only [hn]
  exact hp

/-! ## Facts for the claim theorems -/

theorem newDeserializer_length {F : Variant} {l rest : List Nat}
    (h : newDeserializer F l = .ok rest) : rest.length ≤ l.length := by
  unfold newDeserializer at h
  split at h
  · exact absurd h (by simp)
  · rename_i b l₁ he
    split at h
    · exact absurd h (by simp)
    · rename_i ty
      split at h
      · exact absurd h (by simp)
      · split at h
        · exact absurd h (by simp)
        · rename_i len l₂ he2
          split at h
          · exact absurd h (by simp)
          · rename_i nm l₃ he3
            split at h
            · injection h with h'
              subst h'
              have h1 := readU8_length he
              have h2 := readStrLen_length he2
              have h3 := readExact_length he3
              omega
            · exact absurd h (by simp)

theorem tryFrom_err {b : Nat} (h : 12 < b) :
    FieldType.tryFrom b = .error (.unrecognizedTag b) := by
  unfold FieldType.tryFrom
  repeat rw [if_neg (by omega)]

theorem readU8_cons (b : Nat) (rest : List Nat) (h : b < 256) :
    readU8 (b :: rest) = .ok (b, rest) := by
  simp only [readU8, Except.ok.injEq, Prod.mk.injEq, and_true]
  exact Nat.mod_eq_of_lt h

theorem seqHeader_badTag {F : Variant} {n b : Nat} {rest : List Nat}
    (h12 : 12 < b) (h256 : b < 256) :
    seqHeader F .list n (b :: rest) = .error (.unrecognizedTag b) := by
  have hres : resolveElemTy .list (b :: rest) = .error (.unrecognizedTag b) := by
    unfold resolveElemTy
    split
    · rename_i he
      simp at he
    · rename_i he
      simp at he
    · rename_i he
      simp at he
    · split
      · rename_i e he
        rw [readU8_cons b rest h256] at he
        exact absurd he (by simp)
      · rename_i b' r' he
        rw [readU8_cons b rest h256] at he
        injection he with he'
        injection he' with hb hr
        subst hb
        subst hr
        rw [tryFrom_err h12]
  unfold seqHeader
  simp only [hres]

theorem decodeEntriesAux_badTag {F : Variant} {b : Nat} {rest : List Nat}
    (acc : List (List Nat × Value)) (h12 : 12 < b) (h256 : b < 256) :
    decodeEntriesAux F (b :: rest) acc = .error (.unrecognizedTag b) := by
  rw [decodeEntriesAux.eq_def]
  split
  · rename_i e he
    rw [readU8_cons b rest h256] at he
    exact absurd he (by simp)
  · rename_i b' l₁ he
    rw [readU8_cons b rest h256] at he
    injection he with he'
    injection he' with hb hl
    subst hb
    subst hl
    rw [tryFrom_err h12]

theorem decodeEntriesAux_end (F : Variant) (rest : List Nat)
    (acc : List (List Nat × Value)) :
    decodeEntriesAux F (0 :: rest) acc = .ok (acc, ⟨rest, by simp⟩) := by
  rw [decodeEntriesAux.eq_def]
  split
  · rename_i e he
    simp [readU8] at he
  · rename_i b l₁ he
    simp only [readU8, Except.ok.injEq, Prod.mk.injEq] at he
    obtain ⟨hb, hl⟩ := he
    subst hl
    have hb0 : b = 0 := by omega
    subst hb0
    rw [show FieldType.tryFrom 0 = .ok .end_ from rfl]
    simp

/-! ## Claim theorems -/

/-- C2: for every input byte sequence under every variant, `from_bytes`
terminates (it is a total function of this development) and yields either
a decoded value, consuming the stream strictly forward (the remainder is
no longer than the input), or a structured `NbtError`; no other outcome
exists. -/
theorem c2_decode_total (F : Variant) (l : List Nat) :
    (∃ v rest, from_bytes F l = .ok (v, rest) ∧ rest.length ≤ l.length) ∨
    (∃ e, from_bytes F l = .error e) := by
  cases hn : newDeserializer F l with
  | error e =>
    right
    refine ⟨e, ?_⟩
    unfold from_bytes
    rw [hn]
  | ok rest =>
    have h1 := newDeserializer_length hn
    have hfb : from_bytes F l = deserialize_any F .compound false rest := by
      unfold from_bytes
      rw [hn]
    cases ha : decodeAnyAux F .compound false rest with
    | error e =>
      right
      refine ⟨e, ?_⟩
      rw [hfb]
      unfold deserialize_any
      rw [ha]
    | ok p =>
      obtain ⟨v, r⟩ := p
      left
      refine ⟨v, r.val, ?_, le_trans r.property h1⟩
      rw [hfb]
      unfold deserialize_any
      rw [ha]

/-- C3: a tag byte above 12 fails with `UnrecognizedTag` carrying that
byte at all three tag-reading sites: the root tag of `from_bytes`, the
`List` element-tag prefix in the sequence path, and the entry tag of the
compound loop. -/
theorem c3_unrecognized_tag (F : Variant) (b : Nat) (rest : List Nat)
    (acc : List (List Nat × Value)) (h12 : 12 < b) (h256 : b < 256) :
    from_bytes F (b :: rest) = .error (.unrecognizedTag b) ∧
    deserialize_any F .list false (b :: rest) = .error (.unrecognizedTag b) ∧
    decodeMapEntries F (b :: rest) acc = .error (.unrecognizedTag b) := by
  refine ⟨?_, ?_, ?_⟩
  · unfold from_bytes newDeserializer
    simp only [readU8_cons b rest h256, tryFrom_err h12]
  · unfold deserialize_any
    rw [decodeAnyAux_list]
    simp only [seqHeader_badTag h12 h256]
  · unfold decodeMapEntries
    simp only [decodeEntriesAux_badTag acc h12 h256]

theorem c3_unrecognized_tag_witness :
    (12 < 13 ∧ 13 < 256) ∧
    from_bytes .bigEndian [13] = .error (.unrecognizedTag 13) ∧
    deserialize_any .bigEndian .list false [13] = .error (.unrecognizedTag 13) ∧
    decodeMapEntries .bigEndian [13] [] = .error (.unrecognizedTag 13) :=
  ⟨⟨by decide, by decide⟩, c3_unrecognized_tag .bigEndian 13 [] [] (by decide) (by decide)⟩

/-- C4: every tag-directed scalar read checks the ambient tag against the
exact required tag (`Byte` for bool and i8, `Short` for i16, `Int` for
i32, `Long` for i64, `Float` for f32, `Double` for f64, `String` for
strings) and fails with `UnexpectedType` naming both tags on any
mismatch; in particular reading an i16 while the wire tag is `Int` fails
with expected `Short`, actual `Int`. -/
theorem c4_type_strictness (F : Variant) (ty : FieldType) (l : List Nat) :
    (ty ≠ .byte → deserialize_bool F ty l = .error (.unexpectedType .byte ty) ∧
      deserialize_i8 F ty l = .error (.unexpectedType .byte ty)) ∧
    (ty ≠ .short → deserialize_i16 F ty l = .error (.unexpectedType .short ty)) ∧
    (ty ≠ .int → deserialize_i32 F ty l = .error (.unexpectedType .int ty)) ∧
    (ty ≠ .long → deserialize_i64 F ty l = .error (.unexpectedType .long ty)) ∧
    (ty ≠ .float → deserialize_f32 F ty l = .error (.unexpectedType .float ty)) ∧
    (ty ≠ .double → deserialize_f64 F ty l = .error (.unexpectedType .double ty)) ∧
    (ty ≠ .string → deserialize_string F ty l = .error (.unexpectedType .string ty)) ∧
    deserialize_i16 F .int l = .error (.unexpectedType .short .int) := by
  refine ⟨fun h => ⟨?_, ?_⟩, fun h => ?_, fun h => ?_, fun h => ?_, fun h => ?_,
    fun h => ?_, fun h => ?_, ?_⟩
  · unfold deserialize_bool
    rw [if_pos h]
  · unfold deserialize_i8
    rw [if_pos h]
  · unfold deserialize_i16
    rw [if_pos h]
  · unfold deserialize_i32
    rw [if_pos h]
  · unfold deserialize_i64
    rw [if_pos h]
  · unfold deserialize_f32
    rw [if_pos h]
  · unfold deserialize_f64
    rw [if_pos h]
  · unfold deserialize_string
    rw [if_pos h]
  · unfold deserialize_i16
    rw [if_pos (by decide)]

theorem resolveElemTy_list {b : Nat} {rest : List Nat} {ety : FieldType}
    (h256 : b < 256) (ht : FieldType.tryFrom b = .ok ety) :
    resolveElemTy .list (b :: rest) = .ok (ety, ⟨rest, Nat.le_succ _⟩) := by
  unfold resolveElemTy
  split
  · rename_i he
    simp at he
  · rename_i he
    simp at he
  · rename_i he
    simp at he
  · split
    · rename_i e he
      rw [readU8_cons b rest h256] at he
      exact absurd he (by simp)
    · rename_i b' r' he
      rw [readU8_cons b rest h256] at he
      injection he with he'
      injection he' with hb hr
      subst hb
      subst hr
      rw [ht]

theorem seqHeader_resolved {F : Variant} {nty : FieldType} {n : Nat} {l : List Nat}
    {ty : FieldType} {l₁ : { r : List Nat // r.length ≤ l.length }} {len : Nat}
    {r : List Nat}
    (hres : resolveElemTy nty l = .ok (ty, l₁))
    (hlen : readSeqLen F l₁.val = .ok (len, r))
    (hn : n = 0 ∨ n = len) :
    ∃ pf, seqHeader F nty n l = .ok ((ty, len), ⟨r, pf⟩) := by
  have pf : r.length ≤ l.length :=
    le_trans (Nat.le_of_lt (readSeqLen_length hlen)) l₁.property
  refine ⟨pf, ?_⟩
  unfold seqHeader
  split
  · rename_i e he
    rw [hres] at he
    exact absurd he (by simp)
  · rename_i ty' l₁' he
    rw [hres] at he
    injection he with he'
    injection he' with hty hl₁
    subst hty
    subst hl₁
    split
    · rename_i e h2
      rw [hlen] at h2
      exact absurd h2 (by simp)
    · rename_i len' r' h2
      rw [hlen] at h2
      injection h2 with h2'
      injection h2' with hl hr
      subst hl
      subst hr
      rw [if_neg (by rcases hn with h | h <;> simp [h])]

theorem seqHeader_mismatch {F : Variant} {nty : FieldType} {n : Nat} {l : List Nat}
    {ty : FieldType} {l₁ : { r : List Nat // r.length ≤ l.length }} {len : Nat}
    {r : List Nat}
    (hres : resolveElemTy nty l = .ok (ty, l₁))
    (hlen : readSeqLen F l₁.val = .ok (len, r))
    (h0 : n ≠ 0) (hne : n ≠ len) :
    seqHeader F nty n l = .error (.other (seqLenMsg n ty len)) := by
  unfold seqHeader
  split
  · rename_i e he
    rw [hres] at he
    exact absurd he (by simp)
  · rename_i ty' l₁' he
    rw [hres] at he
    injection he with he'
    injection he' with hty hl₁
    subst hty
    subst hl₁
    split
    · rename_i e h2
      rw [hlen] at h2
      exact absurd h2 (by simp)
    · rename_i len' r' h2
      rw [hlen] at h2
      injection h2 with h2'
      injection h2' with hl hr
      subst hl
      subst hr
      rw [if_pos ⟨h0, hne⟩]

theorem c4_type_strictness_witness :
    deserialize_i16 .bigEndian .int ([] : List Nat) =
      .error (.unexpectedType .short .int) ∧
    (FieldType.int ≠ .byte) ∧
    deserialize_bool .bigEndian .int ([] : List Nat) =
      .error (.unexpectedType .byte .int) :=
  ⟨(c4_type_strictness .bigEndian .int []).2.2.2.2.2.2.2, by decide,
    ((c4_type_strictness .bigEndian .int []).1 (by decide)).1⟩

/-- C6: the compound loop reads one tag byte per iteration; an `End` tag
(0) terminates the compound immediately, so a body of exactly one `End`
byte decodes to a compound with zero fields; a key read is forced through
`deserialize_string` whatever the ambient tag is; and for any other legal
tag the loop decodes the key as a string and then the value under the tag
byte read before the key (wire order: tag, key, payload). -/
theorem c6_compound_decode :
    (∀ (F : Variant) (rest : List Nat) (acc : List (List Nat × Value)),
      decodeMapEntries F (0 :: rest) acc = .ok (acc, rest)) ∧
    (∀ (F : Variant) (rest : List Nat),
      deserialize_any F .compound false (0 :: rest) = .ok (.compound [], rest)) ∧
    (∀ (F : Variant) (ty : FieldType) (l : List Nat),
      deserialize_any F ty true l =
        match deserialize_string F ty l with
        | .error e => .error e
        | .ok (s, r) => .ok (.string s, r.val)) ∧
    (∀ (F : Variant) (b : Nat) (t : FieldType) (rest : List Nat)
        (acc : List (List Nat × Value)),
      b < 256 → FieldType.tryFrom b = .ok t → t ≠ .end_ →
      decodeMapEntries F (b :: rest) acc =
        match deserialize_string F .string rest with
        | .error e => .error e
        | .ok (k, l₂) =>
          match deserialize_any F t false l₂.val with
          | .error e => .error e
          | .ok (v, l₃) => decodeMapEntries F l₃ (insertEntry acc k v)) := by
  refine ⟨?_, ?_, ?_, ?_⟩
  · intro F rest acc
    unfold decodeMapEntries
    rw [decodeEntriesAux_end]
  · intro F rest
    unfold deserialize_any
    rw [decodeAnyAux_compound]
    rw [decodeEntriesAux_end]
  · intro F ty l
    unfold deserialize_any
    rw [decodeAnyAux_key]
    cases hds : deserialize_string F ty l with
    | error e => simp only [hds]
    | ok p =>
      obtain ⟨s, r⟩ := p
      simp only [hds]
  · intro F b t rest acc h256 ht hne
    have hstep : decodeEntriesAux F (b :: rest) acc =
        match deserialize_string F .string rest with
        | .error e => .error e
        | .ok (k, l₂) =>
          match decodeAnyAux F t false l₂.val with
          | .error e => .error e
          | .ok (v, l₃) =>
            match decodeEntriesAux F l₃.val (insertEntry acc k v) with
            | .error e => .error e
            | .ok (m, r) =>
              .ok (m, ⟨r.val, by
                have ha := r.property
                have hb := l₃.property
                have hc := l₂.property
                simp only [List.length_cons]
                omega⟩) := by
      rw [decodeEntriesAux.eq_def]
      split
      · rename_i e he
        rw [readU8_cons b rest h256] at he
        exact absurd he (by simp)
      · rename_i b' l₁ he
        rw [readU8_cons b rest h256] at he
        injection he with he'
        injection he' with hb hl
        subst hb
        subst hl
        simp only [ht]
        rw [if_neg hne]
    unfold decodeMapEntries
    rw [hstep]
    cases hds : deserialize_string F .string rest with
    | error e => simp only [hds]
    | ok p =>
      obtain ⟨k, l₂⟩ := p
      simp only [hds]
      cases hda : decodeAnyAux F t false l₂.val with
      | error e => simp only [deserialize_any, hda]
      | ok q =>
        obtain ⟨v, l₃⟩ := q
        simp only [deserialize_any, hda]
        cases hde : decodeEntriesAux F l₃.val (insertEntry acc k v) with
        | error e => simp only [hde]
        | ok u =>
          obtain ⟨m, r⟩ := u
          simp only [hde]

theorem c6_compound_decode_witness :
    ((1 : Nat) < 256 ∧ FieldType.tryFrom 1 = .ok .byte ∧ FieldType.byte ≠ .end_) ∧
    decodeMapEntries .bigEndian (1 :: [0, 1, 97, 5, 0]) [] =
      (match deserialize_string .bigEndian .string [0, 1, 97, 5, 0] with
       | .error e => .error e
       | .ok (k, l₂) =>
         match deserialize_any .bigEndian .byte false l₂.val with
         | .error e => .error e
         | .ok (v, l₃) => decodeMapEntries .bigEndian l₃ (insertEntry [] k v)) :=
  ⟨⟨by decide, rfl, by decide⟩,
    c6_compound_decode.2.2.2 .bigEndian 1 .byte [0, 1, 97, 5, 0] []
      (by decide) rfl (by decide)⟩

/-- C7: for `ByteArray`, `IntArray` and `LongArray` the element tag is
implied by the array's own tag (`Byte`, `Int`, `Long` respectively) and no
element-tag byte is consumed from the wire, while for `List` exactly one
element-tag byte is read immediately before the length; and the element
loop re-applies the established element tag before every element. -/
theorem c7_sequence_element_tags :
    (∀ (F : Variant) (n : Nat) (l : List Nat) (len : Nat) (r : List Nat),
      readSeqLen F l = .ok (len, r) → n = 0 ∨ n = len →
      ∃ pf, seqHeader F .byteArray n l = .ok ((.byte, len), ⟨r, pf⟩)) ∧
    (∀ (F : Variant) (n : Nat) (l : List Nat) (len : Nat) (r : List Nat),
      readSeqLen F l = .ok (len, r) → n = 0 ∨ n = len →
      ∃ pf, seqHeader F .intArray n l = .ok ((.int, len), ⟨r, pf⟩)) ∧
    (∀ (F : Variant) (n : Nat) (l : List Nat) (len : Nat) (r : List Nat),
      readSeqLen F l = .ok (len, r) → n = 0 ∨ n = len →
      ∃ pf, seqHeader F .longArray n l = .ok ((.long, len), ⟨r, pf⟩)) ∧
    (∀ (F : Variant) (n b : Nat) (ety : FieldType) (rest : List Nat)
        (len : Nat) (r : List Nat),
      b < 256 → FieldType.tryFrom b = .ok ety →
      readSeqLen F rest = .ok (len, r) → n = 0 ∨ n = len →
      ∃ pf, seqHeader F .list n (b :: rest) = .ok ((ety, len), ⟨r, pf⟩)) ∧
    (∀ (F : Variant) (ety : FieldType) (m : Nat) (l : List Nat),
      decodeElems F ety (m + 1) l =
        match deserialize_any F ety false l with
        | .error e => .error e
        | .ok (v, r) =>
          match decodeElems F ety m r with
          | .error e => .error e
          | .ok (vs, r') => .ok (v :: vs, r')) := by
  refine ⟨?_, ?_, ?_, ?_, ?_⟩
  · intro F n l len r hlen hn
    exact seqHeader_resolved rfl hlen hn
  · intro F n l len r hlen hn
    exact seqHeader_resolved rfl hlen hn
  · intro F n l len r hlen hn
    exact seqHeader_resolved rfl hlen hn
  · intro F n b ety rest len r h256 ht hlen hn
    exact seqHeader_resolved (resolveElemTy_list h256 ht) hlen hn
  · intro F ety m l
    unfold decodeElems deserialize_any
    rw [decodeElemsAux_succ]
    cases ha : decodeAnyAux F ety false l with
    | error e => simp only [ha]
    | ok p =>
      obtain ⟨v, r⟩ := p
      simp only [ha]
      cases hb : decodeElemsAux F ety m r.val with
      | error e => simp only [hb]
      | ok q =>
        obtain ⟨vs, r'⟩ := q
        simp only [hb]

theorem c7_sequence_element_tags_witness :
    readSeqLen .bigEndian [0, 0, 0, 2] = .ok (2, ([] : List Nat)) ∧
    (∃ pf, seqHeader .bigEndian .intArray 0 [0, 0, 0, 2] =
      .ok ((.int, 2), ⟨[], pf⟩)) :=
  ⟨rfl,
    c7_sequence_element_tags.2.1 .bigEndian 0 [0, 0, 0, 2] 2 [] rfl (.inl rfl)⟩

/-- C8: a caller-fixed nonzero arity `n` differing from the decoded wire
length fails with an `Other` error whose message (that of
`SeqDeserializer::new`) names both `n` and the wire length; an expected
arity of zero accepts any wire length with no check. -/
theorem c8_arity_check :
    (∀ (n len : Nat) (ty : FieldType),
      seqLenMsg n ty len = "Sequence of " ++ toString n ++ " " ++ ty.debugName ++
        " expected, found only " ++ toString len ++ " items") ∧
    (∀ (F : Variant) (n b : Nat) (ety : FieldType) (rest : List Nat)
        (len : Nat) (r : List Nat),
      b < 256 → FieldType.tryFrom b = .ok ety →
      readSeqLen F rest = .ok (len, r) → n ≠ 0 → n ≠ len →
      seqHeader F .list n (b :: rest) = .error (.other (seqLenMsg n ety len))) ∧
    (∀ (F : Variant) (n : Nat) (l : List Nat) (len : Nat) (r : List Nat),
      readSeqLen F l = .ok (len, r) → n ≠ 0 → n ≠ len →
      seqHeader F .intArray n l = .error (.other (seqLenMsg n .int len))) ∧
    (∀ (F : Variant) (l : List Nat) (len : Nat) (r : List Nat),
      readSeqLen F l = .ok (len, r) →
      ∃ pf, seqHeader F .intArray 0 l = .ok ((.int, len), ⟨r, pf⟩)) := by
  refine ⟨?_, ?_, ?_, ?_⟩
  · intro n len ty
    rfl
  · intro F n b ety rest len r h256 ht hlen h0 hne
    exact seqHeader_mismatch (resolveElemTy_list h256 ht) hlen h0 hne
  · intro F n l len r hlen h0 hne
    exact seqHeader_mismatch rfl hlen h0 hne
  · intro F l len r hlen
    exact seqHeader_resolved rfl hlen (.inl rfl)

theorem c8_arity_check_witness :
    readSeqLen .bigEndian [0, 0, 0, 2] = .ok (2, ([] : List Nat)) ∧
    seqHeader .bigEndian .list 3 (1 :: [0, 0, 0, 2]) =
      .error (.other "Sequence of 3 Byte expected, found only 2 items") :=
  ⟨rfl,
    (c8_arity_check.2.1 .bigEndian 3 1 .byte [0, 0, 0, 2] 2 []
      (by decide) rfl rfl (by decide) (by decide)).trans (by rfl)⟩

/-- C10: a `List` whose explicit element-tag byte is `End` (0) is legal at
the tag itself: with a decoded length of 0 the list decodes to the empty
list, while with a nonzero decoded length decoding the first element fails
with the `Other` error "Encountered unmatched end tag". -/
theorem c10_end_element_tag :
    (∀ (F : Variant) (l₁ rest : List Nat),
      readSeqLen F l₁ = .ok (0, rest) →
      deserialize_any F .list false (0 :: l₁) = .ok (.list [], rest)) ∧
    (∀ (F : Variant) (l₁ : List Nat) (n : Nat) (rest : List Nat),
      readSeqLen F l₁ = .ok (n + 1, rest) →
      deserialize_any F .list false (0 :: l₁) =
        .error (.other "Encountered unmatched end tag")) := by
  constructor
  · intro F l₁ rest h
    have hres : resolveElemTy .list ((0 : Nat) :: l₁) = .ok (.end_, ⟨l₁, Nat.le_succ _⟩) :=
      resolveElemTy_list (by decide) rfl
    obtain ⟨pf, hsh⟩ := seqHeader_resolved hres h (.inl rfl)
    unfold deserialize_any
    rw [decodeAnyAux_list]
    simp only [hsh, decodeElemsAux_zero]
  · intro F l₁ n rest h
    have hres : resolveElemTy .list ((0 : Nat) :: l₁) = .ok (.end_, ⟨l₁, Nat.le_succ _⟩) :=
      resolveElemTy_list (by decide) rfl
    obtain ⟨pf, hsh⟩ := seqHeader_resolved hres h (.inl rfl)
    unfold deserialize_any
    rw [decodeAnyAux_list]
    simp only [hsh, decodeElemsAux_succ, decodeAnyAux_end]

theorem readExact_len {n : Nat} {l bs r : List Nat}
    (h : readExact n l = .ok (bs, r)) : bs.length = n := by
  induction n generalizing l bs r with
  | zero =>
    simp only [readExact, Except.ok.injEq, Prod.mk.injEq] at h
    obtain ⟨h1, _⟩ := h
    subst h1
    rfl
  | succ m ih =>
    cases l with
    | nil => exact absurd h (by simp [readExact])
    | cons b t =>
      simp only [readExact] at h
      cases hre : readExact m t with
      | error e => rw [hre] at h; exact absurd h (by simp)
      | ok p =>
        obtain ⟨bs', r'⟩ := p
        rw [hre] at h
        simp only [Except.ok.injEq, Prod.mk.injEq] at h
        obtain ⟨h1, _⟩ := h
        subst h1
        simp [ih hre]

theorem readLE_eq_spec (w : Nat) (l : List Nat) : readLE w l = spec_fixedLE w l := by
  induction w generalizing l with
  | zero => simp [readLE, spec_fixedLE, readExact, spec_combineLE]
  | succ m ih =>
    cases l with
    | nil => simp [readLE, spec_fixedLE, readExact]
    | cons b t =>
      simp only [readLE, spec_fixedLE, readExact, ih t]
      cases hre : readExact m t with
      | error e => simp [spec_fixedLE, hre]
      | ok p =>
        obtain ⟨bs, r⟩ := p
        simp [spec_fixedLE, hre, spec_combineLE]

theorem readBE_eq_spec (w : Nat) (l : List Nat) : readBE w l = spec_fixedBE w l := by
  induction w generalizing l with
  | zero => simp [readBE, spec_fixedBE, readExact, spec_combineBE]
  | succ m ih =>
    cases l with
    | nil => simp [readBE, spec_fixedBE, readExact]
    | cons b t =>
      simp only [readBE, spec_fixedBE, readExact, ih t]
      cases hre : readExact m t with
      | error e => simp [spec_fixedBE, hre]
      | ok p =>
        obtain ⟨bs, r⟩ := p
        simp [spec_fixedBE, hre, spec_combineBE, readExact_len hre]

theorem spec_uvarint_eq (l : List Nat) : ∀ s a : Nat,
    spec_uvarint s a l =
      match readUVarint l with
      | .error e => .error e
      | .ok (n, r) => .ok (a + n * 2 ^ s, r) := by
  induction l with
  | nil => intro s a; rfl
  | cons b t ih =>
    intro s a
    by_cases hb : b % 256 < 128
    · simp [spec_uvarint, readUVarint, hb]
    · simp only [spec_uvarint, readUVarint, if_neg hb, ih]
      cases hr : readUVarint t with
      | error e => rfl
      | ok p =>
        obtain ⟨n, r⟩ := p
        simp only [Except.ok.injEq, Prod.mk.injEq, and_true]
        rw [pow_add]
        ring

theorem zigDecode_eq_spec (z : Nat) : zigDecode z = spec_zigDecode z := by
  unfold zigDecode spec_zigDecode
  split
  · rfl
  · rename_i h
    have h2 : (z + 1) / 2 = z / 2 + 1 := by omega
    rw [h2]
    push_cast
    ring

/-- C5: under the network variant, Short, Float and Double payloads are
fixed-width little-endian, Int and Long payloads are signed zigzag
varints, and the string length prefix is an unsigned 32-bit varint; under
the two fixed variants all of these are fixed-width in the variant's byte
order, with unsigned 16-bit string lengths — each reader shown equal to a
definition following the spec's wording. -/
theorem c5_wire_asymmetry :
    (∀ l, readI16 .networkEndian l =
      match spec_fixedLE 2 l with
      | .error e => .error e
      | .ok (n, r) => .ok (toSigned 16 n, r)) ∧
    (∀ l, readF32 .networkEndian l = spec_fixedLE 4 l) ∧
    (∀ l, readF64 .networkEndian l = spec_fixedLE 8 l) ∧
    (∀ l, readI32 .networkEndian l =
      match spec_uvarint 0 0 l with
      | .error e => .error e
      | .ok (z, r) => .ok (spec_zigDecode (z % 2 ^ 32), r)) ∧
    (∀ l, readI64 .networkEndian l =
      match spec_uvarint 0 0 l with
      | .error e => .error e
      | .ok (z, r) => .ok (spec_zigDecode (z % 2 ^ 64), r)) ∧
    (∀ l, readStrLen .networkEndian l =
      match spec_uvarint 0 0 l with
      | .error e => .error e
      | .ok (z, r) => .ok (z % 2 ^ 32, r)) ∧
    (∀ l, readI16 .bigEndian l =
      match spec_fixedBE 2 l with
      | .error e => .error e
      | .ok (n, r) => .ok (toSigned 16 n, r)) ∧
    (∀ l, readI32 .bigEndian l =
      match spec_fixedBE 4 l with
      | .error e => .error e
      | .ok (n, r) => .ok (toSigned 32 n, r)) ∧
    (∀ l, readI64 .bigEndian l =
      match spec_fixedBE 8 l with
      | .error e => .error e
      | .ok (n, r) => .ok (toSigned 64 n, r)) ∧
    (∀ l, readF32 .bigEndian l = spec_fixedBE 4 l) ∧
    (∀ l, readF64 .bigEndian l = spec_fixedBE 8 l) ∧
    (∀ l, readStrLen .bigEndian l = spec_fixedBE 2 l) ∧
    (∀ l, readI16 .littleEndian l =
      match spec_fixedLE 2 l with
      | .error e => .error e
      | .ok (n, r) => .ok (toSigned 16 n, r)) ∧
    (∀ l, readI32 .littleEndian l =
      match spec_fixedLE 4 l with
      | .error e => .error e
      | .ok (n, r) => .ok (toSigned 32 n, r)) ∧
    (∀ l, readI64 .littleEndian l =
      match spec_fixedLE 8 l with
      | .error e => .error e
      | .ok (n, r) => .ok (toSigned 64 n, r)) ∧
    (∀ l, readF32 .littleEndian l = spec_fixedLE 4 l) ∧
    (∀ l, readF64 .littleEndian l = spec_fixedLE 8 l) ∧
    (∀ l, readStrLen .littleEndian l = spec_fixedLE 2 l) := by
  refine ⟨?_, ?_, ?_, ?_, ?_, ?_, ?_, ?_, ?_, ?_, ?_, ?_, ?_, ?_, ?_, ?_, ?_, ?_⟩
  · intro l
    simp only [readI16, readLE_eq_spec]
  · intro l
    simp only [readF32, readLE_eq_spec]
  · intro l
    simp only [readF64, readLE_eq_spec]
  · intro l
    simp only [readI32, spec_uvarint_eq]
    cases h : readUVarint l with
    | error e => rfl
    | ok p =>
      obtain ⟨z, r⟩ := p
      simp [zigDecode_eq_spec]
  · intro l
    simp only [readI64, spec_uvarint_eq]
    cases h : readUVarint l with
    | error e => rfl
    | ok p =>
      obtain ⟨z, r⟩ := p
      simp [zigDecode_eq_spec]
  · intro l
    simp only [readStrLen, spec_uvarint_eq]
    cases h : readUVarint l with
    | error e => rfl
    | ok p =>
      obtain ⟨z, r⟩ := p
      simp
  · intro l
    simp only [readI16, readBE_eq_spec]
  · intro l
    simp only [readI32, readBE_eq_spec]
  · intro l
    simp only [readI64, readBE_eq_spec]
  · intro l
    simp only [readF32, readBE_eq_spec]
  · intro l
    simp only [readF64, readBE_eq_spec]
  · intro l
    simp only [readStrLen, readBE_eq_spec]
  · intro l
    simp only [readI16, readLE_eq_spec]
  · intro l
    simp only [readI32, readLE_eq_spec]
  · intro l
    simp only [readI64, readLE_eq_spec]
  · intro l
    simp only [readF32, readLE_eq_spec]
  · intro l
    simp only [readF64, readLE_eq_spec]
  · intro l
    simp only [readStrLen, readLE_eq_spec]

theorem c10_end_element_tag_witness :
    (readSeqLen .bigEndian [0, 0, 0, 0] = .ok (0, ([] : List Nat)) ∧
      deserialize_any .bigEndian .list false (0 :: [0, 0, 0, 0]) = .ok (.list [], [])) ∧
    (readSeqLen .bigEndian [0, 0, 0, 1] = .ok (0 + 1, ([] : List Nat)) ∧
      deserialize_any .bigEndian .list false (0 :: [0, 0, 0, 1]) =
        .error (.other "Encountered unmatched end tag")) :=
  ⟨⟨rfl, c10_end_element_tag.1 .bigEndian [0, 0, 0, 0] [] rfl⟩,
   ⟨rfl, c10_end_element_tag.2 .bigEndian [0, 0, 0, 1] 0 [] rfl⟩⟩

/-- C1: refuted as stated.  A compound holding a NaN float survives the
byte-level round trip verbatim, yet the decoded value is *not* equal to
the original under the `PartialEq` contract (IEEE equality makes NaN
unequal to itself), so `decode(encode(v)) == v` fails. -/
theorem c1_roundtrip_counterexample :
    from_bytes .bigEndian
        (to_bytes .bigEndian (Value.compound [([97], Value.float 2143289344)])) =
      .ok (Value.compound [([97], Value.float 2143289344)], []) ∧
    valueEq (Value.compound [([97], Value.float 2143289344)])
      (Value.compound [([97], Value.float 2143289344)]) = false :=
  ⟨from_bytes_to_bytes .bigEndian _ rfl (by decide), by decide⟩

/-- C1 (amended): for every variant and every well-formed, NaN-free
`Value` tree with a compound root, decoding the encoder's output consumes
all bytes, returns the tree verbatim, and the result is equal to the
original under the `PartialEq` contract. -/
theorem c1_roundtrip (F : Variant) (v : Value)
    (hc : v.fieldType = .compound) (hwf : wfValue v = true)
    (hn : nanFree v = true) :
    from_bytes F (to_bytes F v) = .ok (v, []) ∧ valueEq v v = true :=
  ⟨from_bytes_to_bytes F v hc hwf, valueEq_refl v hwf hn⟩

theorem c1_roundtrip_witness :
    ((Value.compound [([97], Value.byte 1)]).fieldType = .compound ∧
      wfValue (Value.compound [([97], Value.byte 1)]) = true ∧
      nanFree (Value.compound [([97], Value.byte 1)]) = true) ∧
    from_bytes .networkEndian
        (to_bytes .networkEndian (Value.compound [([97], Value.byte 1)])) =
      .ok (Value.compound [([97], Value.byte 1)], []) ∧
    valueEq (Value.compound [([97], Value.byte 1)])
      (Value.compound [([97], Value.byte 1)]) = true :=
  ⟨⟨rfl, by decide, by decide⟩,
    c1_roundtrip .networkEndian (Value.compound [([97], Value.byte 1)])
      rfl (by decide) (by decide)⟩

mutual

theorem valueEq_to_eq : (a : Value) → ∀ b, valueEq a b = true →
    hashSafe a = true → a = b
  | .byte x => by
    intro b h hs
    cases b <;> simp only [valueEq, Bool.false_eq_true, decide_eq_true_eq] at h
    rw [h]
  | .short x => by
    intro b h hs
    cases b <;> simp only [valueEq, Bool.false_eq_true, decide_eq_true_eq] at h
    rw [h]
  | .int x => by
    intro b h hs
    cases b <;> simp only [valueEq, Bool.false_eq_true, decide_eq_true_eq] at h
    rw [h]
  | .long x => by
    intro b h hs
    cases b <;> simp only [valueEq, Bool.false_eq_true, decide_eq_true_eq] at h
    rw [h]
  | .float p => by
    intro b h hs
    cases b <;> simp only [valueEq, Bool.false_eq_true] at h
    rename_i q
    simp only [hashSafe, Bool.and_eq_true, Bool.not_eq_true'] at hs
    simp only [f32Eq, Bool.and_eq_true, Bool.or_eq_true, Bool.not_eq_true',
      decide_eq_true_eq] at h
    rcases h.2 with heq | hz
    · rw [heq]
    · rw [hs.1] at hz
      exact absurd hz.1 (by simp)
  | .double p => by
    intro b h hs
    cases b <;> simp only [valueEq, Bool.false_eq_true] at h
    rename_i q
    simp only [hashSafe, Bool.and_eq_true, Bool.not_eq_true'] at hs
    simp only [f64Eq, Bool.and_eq_true, Bool.or_eq_true, Bool.not_eq_true',
      decide_eq_true_eq] at h
    rcases h.2 with heq | hz
    · rw [heq]
    · rw [hs.1] at hz
      exact absurd hz.1 (by simp)
  | .byteArray bs => by
    intro b h hs
    cases b <;> simp only [valueEq, Bool.false_eq_true, decide_eq_true_eq] at h
    rw [h]
  | .string s => by
    intro b h hs
    cases b <;> simp only [valueEq, Bool.false_eq_true, decide_eq_true_eq] at h
    rw [h]
  | .list xs => by
    intro b h hs
    cases b <;> simp only [valueEq, Bool.false_eq_true] at h
    rename_i ys
    simp only [hashSafe] at hs
    rw [valuesEq_to_eq xs ys h hs]
  | .compound m => by
    intro b h hs
    simp [hashSafe] at hs
  | .intArray xs => by
    intro b h hs
    cases b <;> simp only [valueEq, Bool.false_eq_true, decide_eq_true_eq] at h
    rw [h]
  | .longArray xs => by
    intro b h hs
    cases b <;> simp only [valueEq, Bool.false_eq_true, decide_eq_true_eq] at h
    rw [h]
termination_by a => valueSize a
decreasing_by
  all_goals simp_wf
  all_goals simp only [valueSize, valuesSize, entriesSize]
  all_goals omega

theorem valuesEq_to_eq : (xs : List Value) → ∀ ys, valuesEq xs ys = true →
    hashSafeList xs = true → xs = ys
  | [] => by
    intro ys h hs
    cases ys with
    | nil => rfl
    | cons y t => simp [valuesEq] at h
  | x :: t => by
    intro ys h hs
    cases ys with
    | nil => simp [valuesEq] at h
    | cons y ts =>
      simp only [valuesEq, Bool.and_eq_true] at h
      simp only [hashSafeList, Bool.and_eq_true] at hs
      rw [valueEq_to_eq x y h.1 hs.1, valuesEq_to_eq t ts h.2 hs.2]
termination_by xs => valuesSize xs
decreasing_by
  all_goals simp_wf
  all_goals simp only [valueSize, valuesSize, entriesSize]
  all_goals omega

end

/-- C9: refuted as stated.  Two compounds with the same entries in a
different storage order are equal under the `PartialEq` contract (map
equality is order-independent), yet `Hash` feeds the hasher the entries
in iteration order, producing different write streams. -/
theorem c9_hash_counterexample :
    valueEq (Value.compound [([97], .byte 0), ([98], .byte 1)])
      (Value.compound [([98], .byte 1), ([97], .byte 0)]) = true ∧
    hashValue (Value.compound [([97], .byte 0), ([98], .byte 1)]) ≠
      hashValue (Value.compound [([98], .byte 1), ([97], .byte 0)]) :=
  ⟨by decide, by decide⟩

/-- C9 (amended): float and double payloads are hashed by their raw
little-endian byte pattern, and on hash-safe values (no compound nodes,
no zero or NaN float/double payloads) equal values produce identical
hash-write streams. -/
theorem c9_hash_eq (a b : Value) (h : valueEq a b = true)
    (hs : hashSafe a = true) :
    hashValue a = hashValue b ∧
    (∀ p, hashValue (.float p) = [.wBytes (leBytes 4 p)]) ∧
    (∀ p, hashValue (.double p) = [.wBytes (leBytes 8 p)]) :=
  ⟨congrArg hashValue (valueEq_to_eq a b h hs), fun _ => rfl, fun _ => rfl⟩

theorem c9_hash_eq_witness :
    (valueEq (Value.list [Value.float 5]) (Value.list [Value.float 5]) = true ∧
      hashSafe (Value.list [Value.float 5]) = true) ∧
    hashValue (Value.list [Value.float 5]) = hashValue (Value.list [Value.float 5]) :=
  ⟨⟨by decide, by decide⟩,
    (c9_hash_eq (Value.list [Value.float 5]) (Value.list [Value.float 5])
      (by decide) (by decide)).1⟩

end Nbtx
